import Mathlib

/-!
# Verification of the simplified gfx_glyph text layout and rendering core

This file is a shallow embedding, in Lean 4, of the core algorithms of the
repository: the line-layout engine and viewport clipping index of
`examples/html/display_document.rs`, and the vertex batcher / draw-state
cache of `src/lib.rs`.

Modelling conventions:
* `f32` values are modelled as exact rationals (`ℚ`).  All operations the
  embedded code performs on them (addition, subtraction, multiplication,
  division, comparison, `ceil`) are exact on `ℚ`; concrete counterexamples
  use small dyadic or integer values on which `f32` arithmetic is also
  exact.  Fractional source constants (`1.17`, `0.2`, …) are taken at their
  decimal value.
* Rust strings are modelled as `List Char`; the byte offsets produced by
  `char_indices` (always codepoint boundaries in the source) are modelled
  as character indices, which is a faithful re-indexing because offsets are
  only ever used to slice at previously recorded boundaries.
* Rust's `char::is_whitespace` / `trim_left` are modelled by Lean's
  `Char.isWhitespace` (the ASCII fragment of the Unicode predicate; both
  the recording of break points and the trimming use the same predicate,
  exactly as in the source).
* A `rusttype` font is opaque to the embedded code: it only provides glyph
  ids for characters, advance widths and kerning at a given scale, and
  unit-scale vertical metrics.  It is modelled as a structure of functions.
-/

namespace GfxGlyph

/-- A 4-component color value (`[f32; 4]` in the source). -/
def Color : Type := ℚ × ℚ × ℚ × ℚ

instance : DecidableEq Color := by unfold Color; infer_instance

/-- `(block_scale * v_metrics.ascent).ceil()` and friends: `f32::ceil`,
modelled on `ℚ` via `Rat.ceil` (cast back to `ℚ`). -/
def ceilQ (q : ℚ) : ℚ := (Rat.ceil q : ℤ)

/-! ## Data model of `examples/html/html_document.rs` -/

inductive BlockClass
  | Heading1 | Heading2 | Heading3 | Heading4 | Heading5 | Heading6
  | ListItem | Paragraph | Preformatted
deriving DecidableEq

inductive SpanClass
  | Bold | BoldItalic | BoldItalicLink | BoldLink | Code
  | Italic | ItalicLink | Link | Regular
deriving DecidableEq

inductive Span
  | LineBreak
  | Text (cls : SpanClass) (text : List Char)
deriving DecidableEq

inductive Block
  | Flowing (cls : BlockClass) (content : List Span)
  | Image (source : List Char)
deriving DecidableEq

/-! ## The font interface consumed by the layout engine

`display` only ever asks a font for: a glyph id for a character
(`font.glyph(c)`), the advance width of that glyph at a uniform scale
(`glyph.scaled(s).h_metrics().advance_width`), the kerning between two
glyph ids at a scale (`font.pair_kerning(s, a, b)`), and — for `fonts[0]`
only — the unit-scale vertical metrics (`font.v_metrics(Scale::uniform(1.))`). -/

structure Font where
  glyphId : Char → ℕ
  advance : ℚ → ℕ → ℚ
  kern : ℚ → ℕ → ℕ → ℚ
  ascent : ℚ
  descent : ℚ
  line_gap : ℚ

/-- `gfx_glyph::LayoutGlyph`: color, font id, and a positioned scaled glyph. -/
structure LayoutGlyph where
  color : Color
  font_id : ℕ
  gid : ℕ
  gscale : ℚ
  pos : ℚ × ℚ
deriving DecidableEq

/-- A display line: y-range and glyph index range (`struct Line`). -/
structure Line where
  bounds_y : ℚ × ℚ
  glyphs : ℕ × ℕ
deriving DecidableEq

instance : Inhabited Line := ⟨⟨(0, 0), (0, 0)⟩⟩

/-- `struct Display`: the ordered glyph sequence and the line index. -/
structure Display where
  glyphs : List LayoutGlyph
  lines : List Line
deriving DecidableEq

/-! ## Constants of `display_document.rs` -/

def COLOR_CODE : Color := (Rat.divInt 1 5, Rat.divInt 1 5, Rat.divInt 1 5, 1)
def COLOR_IMAGE_PLACEHOLDER : Color := (Rat.divInt 4 5, 0, 0, 1)
def COLOR_LINK : Color := (Rat.divInt 25 255, Rat.divInt 118 255, Rat.divInt 210 255, 1)
def COLOR_REGULAR : Color := (0, 0, 0, 1)
def FONT_SIZE_REGULAR : ℚ := 18
def INDENT : ℚ := 32
def PARAGRAPH_SPACING : ℚ := 14
def WIDTH : ℚ := 540

/-- Block scale factor for a block class (the `match class` at the start of
the flowing-block arm, before multiplication by `FONT_SIZE_REGULAR * scale`). -/
def blockFactor : BlockClass → ℚ
  | .Heading1 => 2
  | .Heading2 => Rat.divInt 3 2
  | .Heading3 => Rat.divInt 117 100
  | .Heading4 => 1
  | .Heading5 => Rat.divInt 83 100
  | .Heading6 => Rat.divInt 67 100
  | .ListItem => 1
  | .Paragraph => 1
  | .Preformatted => 1

/-- Font id for a span class (both occurrences of the `match class` in the
source compute the same mapping). -/
def fontIdOf : SpanClass → ℕ
  | .Bold | .BoldLink => 1
  | .BoldItalic | .BoldItalicLink => 2
  | .Code => 4
  | .Italic | .ItalicLink => 3
  | .Link | .Regular => 0

/-- Color for a span class. -/
def colorOf : SpanClass → Color
  | .Bold | .BoldItalic | .Italic | .Regular => COLOR_REGULAR
  | .BoldLink | .BoldItalicLink | .ItalicLink | .Link => COLOR_LINK
  | .Code => COLOR_CODE

/-- `fn map_character`. -/
def map_character (c : Char) : Char :=
  if c = '\n' then ' ' else c

/-! ## The width-measuring scan (first inner loop of the `loop` body)

The scan walks the spans accumulating advance width into
`caret_position_x`, recording the most recent whitespace position in
`break_point`, and stops (`break 'a` with `wrap = true`) at a line break
span or at a width overflow.  `(0, 0)` is the initial "no break recorded"
value of `break_point`. -/

structure ScanSt where
  break_point : ℕ × ℕ
  caret : ℚ
  last_font_id : ℕ
  last_glyph : Option ℕ
deriving DecidableEq

/-- `if let Some(last_glyph) = last_glyph { caret_position_x +=
font.pair_kerning(scale, last_glyph, glyph.id()) }`: add the kerning
against the previous glyph, if any. -/
def kernAdd (font : Font) (bs : ℚ) (lg : Option ℕ) (caret : ℚ) (gid : ℕ) : ℚ :=
  match lg with
  | some g0 => caret + font.kern bs g0 gid
  | none => caret

/-- Scan the characters of one span (`for (character_position, character)
in text.char_indices()`), at span index `si`, starting at character
position `p` within the (sliced) span text.  Returns `.inl st` when the
span ends without wrapping and `.inr bp` when the line wraps with break
point `bp`. -/
def scanChars (font : Font) (bs : ℚ) (si : ℕ) :
    List Char → ℕ → ScanSt → ScanSt ⊕ (ℕ × ℕ)
  | [], _, st => .inl st
  | c :: cs, p, st =>
    let bp0 := if c.isWhitespace then (si, p) else st.break_point
    let gid := font.glyphId (map_character c)
    let caret2 := kernAdd font bs st.last_glyph st.caret gid + font.advance bs gid
    if caret2 > WIDTH then
      if bp0 = (0, 0) then
        if (si, p) = ((0, 0) : ℕ × ℕ) then
          scanChars font bs si cs (p + 1) ⟨(si, p), caret2, st.last_font_id, some gid⟩
        else .inr (si, p)
      else .inr bp0
    else scanChars font bs si cs (p + 1) ⟨bp0, caret2, st.last_font_id, some gid⟩

/-- Scan the spans of the current line (`'a: for (span_index, span) in
content.iter().enumerate()`).  `sp` is `start_point` (slicing the first
span), `si` the index of the first span in `spans`.  Returns the final
`break_point` together with the `wrap` flag (the returned break point is
only meaningful when `wrap = true`; on `wrap = false` the caller overrides
it with `(content.len() + 1, 0)`). -/
def scanSpans (fonts : ℕ → Font) (bs : ℚ) (sp : ℕ) :
    List Span → ℕ → ScanSt → (ℕ × ℕ) × Bool
  | [], _, st => (st.break_point, false)
  | .LineBreak :: _, si, _ => ((si + 1, 0), true)
  | .Text cls text :: rest, si, st =>
    let text1 := if si = 0 then text.drop sp else text
    let fid := fontIdOf cls
    let st1 : ScanSt :=
      if fid ≠ st.last_font_id then
        { st with last_glyph := none, last_font_id := fid }
      else st
    match scanChars (fonts fid) bs si text1 0 st1 with
    | .inl st2 => scanSpans fonts bs sp rest (si + 1) st2
    | .inr bp => (bp, true)

/-! ## The emission pass (second inner loop of the `loop` body) -/

/-- Emit positioned glyphs for a list of characters (the inner
`for character in text.chars()` of the emission loop, also used by the
image-block loop).  Returns the emitted glyphs together with the final
caret position and kerning memory. -/
def emitChars (font : Font) (bs : ℚ) (color : Color) (fid : ℕ) (baseY : ℚ) :
    List Char → ℚ → Option ℕ → (List LayoutGlyph × ℚ × Option ℕ)
  | [], caret, lg => ([], caret, lg)
  | c :: cs, caret, lg =>
    let gid := font.glyphId (map_character c)
    let caret1 := kernAdd font bs lg caret gid
    let r := emitChars font bs color fid baseY cs (caret1 + font.advance bs gid) (some gid)
    (⟨color, fid, gid, bs, (caret1, baseY)⟩ :: r.1, r.2)

/-- Emit the glyphs of one line (`for (span_index, span) in
content.iter().enumerate()` of the emission pass): slice the first span at
`sp`, slice span `bp.1` at `bp.2`, stop at a line break span or after span
`bp.1`. -/
def emitSpans (fonts : ℕ → Font) (bs : ℚ) (sp : ℕ) (bp : ℕ × ℕ) (baseY : ℚ) :
    List Span → ℕ → ℚ → ℕ → Option ℕ → List LayoutGlyph
  | [], _, _, _, _ => []
  | .LineBreak :: _, _, _, _, _ => []
  | .Text cls text :: rest, si, caret, lf, lg =>
    let text1 := if si = 0 then text.drop sp else text
    let text2 := if si = bp.1 then text1.take bp.2 else text1
    let color := colorOf cls
    let fid := fontIdOf cls
    let lg1 : Option ℕ := if fid ≠ lf then none else lg
    let r := emitChars (fonts fid) bs color fid baseY text2 caret lg1
    if si = bp.1 then r.1
    else r.1 ++ emitSpans fonts bs sp bp baseY rest (si + 1) r.2.1 fid r.2.2

/-- The post-wrap whitespace trimming (`while let Some(Span::Text ...)`):
drop leading whitespace of the next line's content, dropping exhausted
spans. -/
def trimContent : List Span → ℕ → List Span × ℕ
  | [], sp => ([], sp)
  | .LineBreak :: rest, sp => (.LineBreak :: rest, sp)
  | .Text cls text :: rest, sp =>
    let trimmed := (text.drop sp).dropWhile Char.isWhitespace
    if trimmed.isEmpty then trimContent rest 0
    else (.Text cls text :: rest, text.length - trimmed.length)

/-- The next iteration's `(content, start_point)` after wrapping at break
point `bp` (`if break_point.0 == 0 { start_point += break_point.1 } else
{ content = &content[break_point.0..]; start_point = break_point.1 }`
followed by the whitespace-trimming loop). -/
def lineNextState (content : List Span) (sp : ℕ) (bp : ℕ × ℕ) : List Span × ℕ :=
  trimContent (if bp.1 = 0 then content else content.drop bp.1)
    (if bp.1 = 0 then sp + bp.2 else bp.2)

/-- The bullet glyph pushed at the start of a list item's first line. -/
def bulletGlyph (fonts : ℕ → Font) (posX bs baseY : ℚ) : LayoutGlyph :=
  ⟨COLOR_REGULAR, 0, (fonts 0).glyphId '•', bs,
    (posX + Rat.divInt 1 2 * INDENT, baseY)⟩

/-- The flowing-block `loop`, with `fuel` bounding the number of
iterations; `none` on fuel exhaustion (shown below never to happen for the
fuel chosen by `layoutBlock`).  One iteration: scan for the break point,
emit the bullet glyph (first line of a list item) and the line's glyphs,
push the line, advance the cursor, and — when wrapping — continue with the
trimmed rest of the content.  Returns the glyphs and lines the block
appends and the final cursor position. -/
def flowLoopF (fonts : ℕ → Font) (posX bs leftMargin asc desc gap : ℚ) :
    ℕ → List Span → ℕ → Bool → ℚ → ℕ → Option (List LayoutGlyph × List Line × ℚ)
  | 0, _, _, _, _, _ => none
  | fuel + 1, content, sp, bullet, y, g0 =>
    let scan := scanSpans fonts bs sp content 0 ⟨(0, 0), leftMargin, 0, none⟩
    let bp := if scan.2 then scan.1 else (content.length + 1, 0)
    let baseY := y + ceilQ (bs * asc)
    let bulletGs : List LayoutGlyph :=
      if bullet then [bulletGlyph fonts posX bs baseY] else []
    let gs := bulletGs ++ emitSpans fonts bs sp bp baseY content 0 (posX + leftMargin) 0 none
    let line : Line := ⟨(y, baseY - bs * desc), (g0, g0 + gs.length)⟩
    let y1 := y + bs * (asc - desc + gap)
    if scan.2 then
      let next := lineNextState content sp scan.1
      match flowLoopF fonts posX bs leftMargin asc desc gap fuel
          next.1 next.2 false y1 (g0 + gs.length) with
      | none => none
      | some (gs2, ls2, y2) => some (gs ++ gs2, line :: ls2, y2)
    else some (gs, [line], y1)

/-- Size of a span for the termination measure. -/
def spanSize : Span → ℕ
  | .LineBreak => 0
  | .Text _ text => text.length

/-- Termination measure of the flowing-block loop: total remaining
character count (plus one per span, so dropping a span always counts). -/
def spanMeasure (content : List Span) : ℕ :=
  (content.map (fun s => spanSize s + 1)).sum

def imageLabel : List Char := "Image: ".toList

/-- The left margin of a block (`let left_margin = match class ...`). -/
def blockMargin (cls : BlockClass) (scale : ℚ) : ℚ :=
  match cls with
  | .ListItem | .Preformatted => INDENT * scale
  | _ => 0

/-- Whether a block displays a leading bullet (`let mut display_bullet`). -/
def blockBullet : BlockClass → Bool
  | .ListItem => true
  | _ => false

/-- Lay out one block (`for block in document.iter()` body): a flowing
block runs the wrap loop then adds the paragraph gap; an image block emits
one placeholder line (note: the glyphs and the cursor advance use
`FONT_SIZE_REGULAR` WITHOUT the global scale, while the baseline ceiling
and the paragraph gap include the scale — exactly as in the source).
`map_character` is idempotent, so pre-mapping the image source before
`emitChars` (which maps again) matches the source's single mapping. -/
def layoutBlock (fonts : ℕ → Font) (posX scale asc desc gap : ℚ)
    (b : Block) (y : ℚ) (g0 : ℕ) : Option (List LayoutGlyph × List Line × ℚ) :=
  match b with
  | .Flowing cls content =>
    let bs := blockFactor cls * FONT_SIZE_REGULAR * scale
    (flowLoopF fonts posX bs (blockMargin cls scale) asc desc gap
        (spanMeasure content + 1) content 0 (blockBullet cls) y g0).map
      fun r => (r.1, r.2.1, r.2.2 + PARAGRAPH_SPACING * scale)
  | .Image source =>
    let baseY := y + ceilQ (FONT_SIZE_REGULAR * scale * asc)
    let gs := (emitChars (fonts 0) FONT_SIZE_REGULAR COLOR_IMAGE_PLACEHOLDER 0 baseY
      (imageLabel ++ source.map map_character) posX none).1
    some (gs,
      [⟨(y, baseY - FONT_SIZE_REGULAR * desc), (g0, g0 + gs.length)⟩],
      y + FONT_SIZE_REGULAR * (asc - desc + gap) + PARAGRAPH_SPACING * scale)

/-- Lay out a list of blocks starting at cursor `y` with `g0` glyphs
already emitted. -/
def displayGo (fonts : ℕ → Font) (posX scale asc desc gap : ℚ) :
    List Block → ℚ → ℕ → Option (List LayoutGlyph × List Line × ℚ)
  | [], y, _ => some ([], [], y)
  | b :: rest, y, g0 =>
    match layoutBlock fonts posX scale asc desc gap b y g0 with
    | none => none
    | some (gs, ls, y1) =>
      match displayGo fonts posX scale asc desc gap rest y1 (g0 + gs.length) with
      | none => none
      | some (gs2, ls2, y2) => some (gs ++ gs2, ls ++ ls2, y2)

/-- `pub fn display(document, fonts, position_x, position_y, scale)`.
The `Option` is an artifact of the fuel in `flowLoopF`; it is proved below
that the result is always `some` (claim C4: termination). -/
def display (document : List Block) (fonts : ℕ → Font)
    (position_x position_y scale : ℚ) : Option Display :=
  let asc := (fonts 0).ascent
  let desc := (fonts 0).descent
  let gap := (fonts 0).line_gap
  (displayGo fonts position_x scale asc desc gap document position_y 0).map
    fun r => ⟨r.1, r.2.1⟩

/-! ## `Display::clip`: the viewport clipping index

The source performs two `binary_search_by` calls with comparators that
never return `Equal`, and takes `unwrap_err()` of the results.  We embed
the `slice::binary_search_by` algorithm of the Rust standard library of
the source's era (the `base`/`size` loop); on a comparator that is
`Less` on a prefix and `Greater` on the rest it returns the partition
point (proved below), which is the documented behaviour the source relies
on. -/

/-- The `while size > 1` loop of `slice::binary_search_by`, returning the
final `base`.  `g i` is the comparator applied to element `i`. -/
def bsGo (g : ℕ → Ordering) (base size : ℕ) : ℕ :=
  if h : size ≤ 1 then base
  else
    let half := size / 2
    let base1 := if g (base + half) = .gt then base else base + half
    bsGo g base1 (size - half)
termination_by size
decreasing_by
  simp only [not_le] at h
  omega

/-- `slice::binary_search_by(f).unwrap_err()` over `n` elements, for a
comparator that never returns `Equal` (both comparators in `clip` return
only `Less` or `Greater`; the `Equal`/`Ok` arm of the source is
unreachable and this embedding returns `base` there). -/
def binary_search_err (g : ℕ → Ordering) (n : ℕ) : ℕ :=
  if n = 0 then 0
  else
    let base := bsGo g 0 n
    match g base with
    | .lt => base + 1
    | _ => base

/-- `pub fn clip(&self, bound_y_min, bound_y_max) -> &[LayoutGlyph]`. -/
def Display.clip (d : Display) (bound_y_min bound_y_max : ℚ) : List LayoutGlyph :=
  let endLineIndex := binary_search_err
    (fun i => if (d.lines.getD i default).bounds_y.1 < bound_y_max then .lt else .gt)
    d.lines.length
  let startLineIndex := binary_search_err
    (fun i => if (d.lines.getD i default).bounds_y.2 > bound_y_min then .gt else .lt)
    endLineIndex
  if startLineIndex < endLineIndex then
    let s := (d.lines.getD startLineIndex default).glyphs.1
    let e := (d.lines.getD (endLineIndex - 1) default).glyphs.2
    (d.glyphs.drop s).take (e - s)
  else []

/-! ## Specification-side definitions for the claims

These definitions follow the words of the specification (not the source);
they are compared against the source-derived definitions above. -/

/-- Spec: a line `L` is visible in the viewport `[yMin, yMax)` when
`L.start < yMax ∧ L.end > yMin`. -/
def clipSpecMatches (yMin yMax : ℚ) (L : Line) : Bool :=
  decide (L.bounds_y.1 < yMax) && decide (L.bounds_y.2 > yMin)

/-- The glyphs of one line, read off the display's glyph sequence. -/
def lineSlice (d : Display) (L : Line) : List LayoutGlyph :=
  (d.glyphs.drop L.glyphs.1).take (L.glyphs.2 - L.glyphs.1)

/-- Spec: `clip` returns exactly the concatenated glyph ranges of the
visible lines. -/
def clipSpecGlyphs (d : Display) (yMin yMax : ℚ) : List LayoutGlyph :=
  (d.lines.filter (clipSpecMatches yMin yMax)).flatMap (lineSlice d)

/-- Claim C2's ordering property of the line list: strictly ascending by
start-y and pairwise non-overlapping (each line's y-range ends no later
than the next line's y-range starts). -/
def linesSortedNonoverlap (ls : List Line) : Prop :=
  ls.Pairwise fun L M => L.bounds_y.1 < M.bounds_y.1 ∧ L.bounds_y.2 ≤ M.bounds_y.1

instance (ls : List Line) : Decidable (linesSortedNonoverlap ls) :=
  List.instDecidablePairwise ls

/-- The glyph ranges of the lines tile the glyph-index interval `[a, b)`
in order: each line's range starts where the previous one ended.  This is
the formalization of "a line's glyph range is contiguous and matches
emission order". -/
def linesChainB (a : ℕ) : List Line → ℕ → Bool
  | [], b => a == b
  | L :: ls, b => (L.glyphs.1 == a) && linesChainB L.glyphs.2 ls b

/-! ## Concrete counterexample inputs -/

/-- A font whose every glyph has advance width 1, no kerning, and
degenerate vertical metrics `ascent = 1`, `descent = 0`, `line_gap = -2`
(so that the per-line cursor advance `block_scale * (ascent - descent +
line_gap)` is negative). -/
def cexFontGapNeg : Font :=
  { glyphId := Char.toNat, advance := fun _ _ => 1, kern := fun _ _ _ => 0,
    ascent := 1, descent := 0, line_gap := -2 }

def cexDocTwoLines : List Block :=
  [.Flowing .Paragraph [.Text .Regular ['x'], .LineBreak, .Text .Regular ['y']]]

/-- A font with `ascent = 1/8`, `descent = 0`, `line_gap = 0`: at block
scale 18 the baseline ceiling `(18 * 1/8).ceil() = 3` exceeds the line
advance `18 * 1/8 = 9/4`, so consecutive lines overlap.  All values are
dyadic, so `f32` computes them exactly. -/
def cexFontCeil : Font :=
  { glyphId := Char.toNat, advance := fun _ _ => 1, kern := fun _ _ _ => 0,
    ascent := Rat.divInt 1 8, descent := 0, line_gap := 0 }

/-- A font whose every glyph has advance width 200 (at any scale): with
column width 540, the third character of a line overflows. -/
def cexFontWide : Font :=
  { glyphId := Char.toNat, advance := fun _ _ => 200, kern := fun _ _ _ => 0,
    ascent := 1, descent := 0, line_gap := 0 }

/-- Unit metrics font with advance 1: `ascent = 1`, `descent = 0`,
`line_gap = 0`. -/
def cexFontPlain : Font :=
  { glyphId := Char.toNat, advance := fun _ _ => 1, kern := fun _ _ _ => 0,
    ascent := 1, descent := 0, line_gap := 0 }

/-! ## Invariants used by the termination and ordering proofs -/

/-- A break point is valid for the current line (scanned from `content`
with the first span sliced at `sp`): either a zero character offset, or a
character position strictly inside the (sliced) text of the span it
refers to. -/
def bpValidC (content : List Span) (sp : ℕ) (bp : ℕ × ℕ) : Prop :=
  bp.2 = 0 ∨ ∃ cls t, content.get? bp.1 = some (.Text cls t) ∧
    bp.2 < (if bp.1 = 0 then t.length - sp else t.length)

/-- `start_point` never exceeds the length of the first span's text. -/
def spOk : List Span → ℕ → Prop
  | [], _ => True
  | s :: _, sp => sp ≤ spanSize s

/-- The y-ranges of a flowing block's lines form an arithmetic
progression: each line spans `[y, y + height)` and the next starts at
`y + adv`. -/
def yProgression (adv height : ℚ) : ℚ → List Line → Prop
  | _, [] => True
  | y, L :: ls => L.bounds_y = (y, y + height) ∧ yProgression adv height (y + adv) ls

/-- All lines lie between the cursor positions `y` (entry) and `y2`
(exit of the block), with consecutive lines strictly ascending by start
and non-overlapping.  This is the invariant `displayGo` accumulates
block by block. -/
def linesBetween (y y2 : ℚ) (ls : List Line) : Prop :=
  (∀ L ∈ ls, y ≤ L.bounds_y.1 ∧ L.bounds_y.1 < y2 ∧ L.bounds_y.2 ≤ y2) ∧
  List.Chain' (fun L M => L.bounds_y.1 < M.bounds_y.1 ∧ L.bounds_y.2 ≤ M.bounds_y.1) ls ∧
  y ≤ y2

/-- The block scale actually used for the per-line cursor advance: the
flowing branch multiplies by the global scale, the image branch does not. -/
def blockScale (s : ℚ) : Block → ℚ
  | .Flowing cls _ => blockFactor cls * FONT_SIZE_REGULAR * s
  | .Image _ => FONT_SIZE_REGULAR

/-- A font with unit advance per glyph, `ascent = 1`, `descent = 0`,
`line_gap = 1`; its metrics satisfy the slack conditions of the amended
C2 at scale 1. -/
def wFont2 : Font :=
  { glyphId := Char.toNat, advance := fun _ _ => 1, kern := fun _ _ _ => 0,
    ascent := 1, descent := 0, line_gap := 1 }

/-- A two-block document: a one-line paragraph and an image. -/
def wDoc2 : List Block := [.Flowing .Paragraph [.Text .Regular ['a', 'b']], .Image ['x']]

/-- The display computed for `wDoc2` with `wFont2` at origin `(0,0)`,
scale 1. -/
def wDisp2 : Display :=
  { glyphs :=
      [⟨COLOR_REGULAR, 0, 97, 18, (0, 18)⟩,
       ⟨COLOR_REGULAR, 0, 98, 18, (1, 18)⟩,
       ⟨COLOR_IMAGE_PLACEHOLDER, 0, 73, 18, (0, 68)⟩,
       ⟨COLOR_IMAGE_PLACEHOLDER, 0, 109, 18, (1, 68)⟩,
       ⟨COLOR_IMAGE_PLACEHOLDER, 0, 97, 18, (2, 68)⟩,
       ⟨COLOR_IMAGE_PLACEHOLDER, 0, 103, 18, (3, 68)⟩,
       ⟨COLOR_IMAGE_PLACEHOLDER, 0, 101, 18, (4, 68)⟩,
       ⟨COLOR_IMAGE_PLACEHOLDER, 0, 58, 18, (5, 68)⟩,
       ⟨COLOR_IMAGE_PLACEHOLDER, 0, 32, 18, (6, 68)⟩,
       ⟨COLOR_IMAGE_PLACEHOLDER, 0, 120, 18, (7, 68)⟩],
    lines := [⟨(0, 18), (0, 2)⟩, ⟨(50, 68), (2, 10)⟩] }

/-- The display computed for the single word "abc" with `cexFontWide`
(advance 200) at origin `(0,0)`, scale 1: the third character overflows
the 540-wide column, forcing a break after two characters. -/
def wDisp4 : Display :=
  { glyphs :=
      [⟨COLOR_REGULAR, 0, 97, 18, (0, 18)⟩,
       ⟨COLOR_REGULAR, 0, 98, 18, (200, 18)⟩,
       ⟨COLOR_REGULAR, 0, 99, 18, (0, 36)⟩],
    lines := [⟨(0, 18), (0, 2)⟩, ⟨(18, 36), (2, 3)⟩] }

/-- A hand-built display with three sorted, non-overlapping, proper
lines whose glyph ranges tile its five glyphs. -/
def wDisp1 : Display :=
  { glyphs :=
      [⟨COLOR_REGULAR, 0, 1, 18, (0, 0)⟩, ⟨COLOR_REGULAR, 0, 2, 18, (1, 0)⟩,
       ⟨COLOR_REGULAR, 0, 3, 18, (2, 0)⟩, ⟨COLOR_REGULAR, 0, 4, 18, (3, 0)⟩,
       ⟨COLOR_REGULAR, 0, 5, 18, (4, 0)⟩],
    lines := [⟨(0, 2), (0, 2)⟩, ⟨(3, 5), (2, 3)⟩, ⟨(6, 8), (3, 5)⟩] }

/-! ## Part B: the library `src/lib.rs`

Embedded in namespace `Lib` (its `LayoutGlyph` and `vertex` are distinct
from the example's types above).  `f32` values are exact rationals;
texture formats and glyph ids are abstracted as naturals. -/

namespace Lib

/-- `gfx_glyph::LayoutGlyph` of the library: color, font id, and the
positioned glyph (of which only the position matters for `translated`).  -/
structure LayoutGlyph where
  color : Color
  font_id : ℕ
  pos : ℚ × ℚ
deriving DecidableEq

/-- `LayoutGlyph::translated`: reposition the glyph at `position() +
offset`, keeping `color` and `font_id` (via `..*self`).  It builds a new
value from `&self`, so the receiver is unchanged (purity is inherent in
the functional embedding). -/
def LayoutGlyph.translated (g : LayoutGlyph) (offset : ℚ × ℚ) : LayoutGlyph :=
  { g with pos := (g.pos.1 + offset.1, g.pos.2 + offset.2) }

/-- An axis-aligned rectangle of rationals (`Rect<f32>`, and the glyph's
pixel and UV rects). -/
structure RectQ where
  min : ℚ × ℚ
  max : ℚ × ℚ
deriving DecidableEq

/-- The instance vertex produced for one glyph (`struct GlyphVertex`). -/
structure GlyphVertex where
  left_top : ℚ × ℚ × ℚ
  right_bottom : ℚ × ℚ
  tex_left_top : ℚ × ℚ
  tex_right_bottom : ℚ × ℚ
  color : Color
deriving DecidableEq

/-- Screen x to gl x: `2.0 * (x / screen_width - 0.5)`. -/
def glX (w x : ℚ) : ℚ := 2 * (x / w - Rat.divInt 1 2)

/-- Screen y to gl y: `2.0 * (0.5 - y / screen_height)` (y is flipped). -/
def glY (h y : ℚ) : ℚ := 2 * (Rat.divInt 1 2 - y / h)

/-- Screen rect to gl rect. -/
def glRect (w h : ℚ) (r : RectQ) : RectQ :=
  ⟨(glX w r.min.1, glY h r.min.2), (glX w r.max.1, glY h r.max.2)⟩

/-- `if gl_rect.max.x > gl_bounds.max.x { let old_width = gl_rect.width();
gl_rect.max.x = gl_bounds.max.x; uv_rect.max.x = uv_rect.min.x +
uv_rect.width() * gl_rect.width() / old_width }` — one axis, state
`(hi, uv_hi)` with the low edge `a` and low uv `u0` fixed. -/
def clipMaxSeq (a b u0 u1 m : ℚ) : ℚ × ℚ :=
  if b > m then (m, u0 + (u1 - u0) * (m - a) / (b - a)) else (b, u1)

/-- `if gl_rect.min.x < gl_bounds.min.x { let old_width = gl_rect.width();
gl_rect.min.x = gl_bounds.min.x; uv_rect.min.x = uv_rect.max.x -
uv_rect.width() * gl_rect.width() / old_width }` — applied after
`clipMaxSeq`, so `b`/`u1` are the current (possibly clipped) high edge. -/
def clipMinSeq (a b u0 u1 m : ℚ) : ℚ × ℚ :=
  if a < m then (m, u1 - (u1 - u0) * (b - m) / (b - a)) else (a, u0)

/-- `if gl_rect.max.y < gl_bounds.max.y { ... }`: the y comparisons are
flipped in gl space. -/
def clipMaxFlip (a b u0 u1 m : ℚ) : ℚ × ℚ :=
  if b < m then (m, u0 + (u1 - u0) * (m - a) / (b - a)) else (b, u1)

/-- `if gl_rect.min.y > gl_bounds.min.y { ... }`. -/
def clipMinFlip (a b u0 u1 m : ℚ) : ℚ × ℚ :=
  if m < a then (m, u1 - (u1 - u0) * (b - m) / (b - a)) else (a, u0)

/-- `fn vertex(glyph, cache, bounds, z, (screen_width, screen_height))`,
for a glyph with an atlas entry `(uv, screen_rect) = rect_for(..)`:
`None` when the screen rect lies strictly outside `bounds`, otherwise the
instance vertex with the gl rect clipped against the gl bounds by the
four sequential edge clips, each shrinking the UV rect by the ratio of
the new to the old gl extent. -/
def vertex (color : Color) (uv screen_rect bounds : RectQ) (z w h : ℚ) :
    Option GlyphVertex :=
  let gl_bounds := glRect w h bounds
  if screen_rect.min.1 > bounds.max.1 ∨ screen_rect.min.2 > bounds.max.2 ∨
      bounds.min.1 > screen_rect.max.1 ∨ bounds.min.2 > screen_rect.max.2 then
    none
  else
    let gl0 := glRect w h screen_rect
    let sx1 := clipMaxSeq gl0.min.1 gl0.max.1 uv.min.1 uv.max.1 gl_bounds.max.1
    let sx2 := clipMinSeq gl0.min.1 sx1.1 uv.min.1 sx1.2 gl_bounds.min.1
    let sy1 := clipMaxFlip gl0.min.2 gl0.max.2 uv.min.2 uv.max.2 gl_bounds.max.2
    let sy2 := clipMinFlip gl0.min.2 sy1.1 uv.min.2 sy1.2 gl_bounds.min.2
    some ⟨(sx2.1, sy1.1, z), (sx1.1, sy2.1), (sx2.2, sy1.2), (sx1.2, sy2.2), color⟩

/-- The affine reparametrization of the UV interval `[u0, u1]` over the
gl interval `[a, b]`: spec-side notion of "shrunk proportionally". -/
def affineT (u0 u1 a b x : ℚ) : ℚ := u0 + (u1 - u0) * (x - a) / (b - a)

/-- Specification-side `vertex`, from the words of the claim: outside
glyphs contribute nothing; otherwise the gl rect is clamped to the gl
bounds edge-by-edge, the UV coordinate of each clipped edge is moved to
the proportional (affine) position of the clamped edge within the
original gl rect, and the UV coordinates of unclipped edges are kept
exactly. -/
def vertexSpec (color : Color) (uv screen_rect bounds : RectQ) (z w h : ℚ) :
    Option GlyphVertex :=
  let glb := glRect w h bounds
  if screen_rect.min.1 > bounds.max.1 ∨ screen_rect.min.2 > bounds.max.2 ∨
      bounds.min.1 > screen_rect.max.1 ∨ bounds.min.2 > screen_rect.max.2 then
    none
  else
    let gl0 := glRect w h screen_rect
    let gmaxx := min gl0.max.1 glb.max.1
    let gminx := max gl0.min.1 glb.min.1
    let gmaxy := max gl0.max.2 glb.max.2
    let gminy := min gl0.min.2 glb.min.2
    let umaxx := if gl0.max.1 > glb.max.1 then
        affineT uv.min.1 uv.max.1 gl0.min.1 gl0.max.1 glb.max.1 else uv.max.1
    let uminx := if gl0.min.1 < glb.min.1 then
        affineT uv.min.1 uv.max.1 gl0.min.1 gl0.max.1 glb.min.1 else uv.min.1
    let umaxy := if gl0.max.2 < glb.max.2 then
        affineT uv.min.2 uv.max.2 gl0.min.2 gl0.max.2 glb.max.2 else uv.max.2
    let uminy := if gl0.min.2 > glb.min.2 then
        affineT uv.min.2 uv.max.2 gl0.min.2 gl0.max.2 glb.min.2 else uv.min.2
    some ⟨(gminx, gmaxy, z), (gmaxx, gminy), (uminx, umaxy), (umaxx, uminy), color⟩

/-- The glyph cache state observable by `draw_queued_with_transform`:
atlas dimensions and the queued glyph requests. -/
structure FontCacheS where
  dims : ℕ × ℕ
  queued : List ℕ
deriving DecidableEq

/-- The cached draw state `DrawnGlyphBrush`: the pso cache key
(`cache.pso.0`, the color format it was built for), the formats the
pipeline object itself was built from (`cache.pso.1`), the texture view
bound in `pipe_data.font_tex`, the `texture_updated` flag, and the
instance count of the slice. -/
structure DrawnS where
  psoKey : ℕ
  psoObj : ℕ × ℕ
  fontTexView : ℕ × ℕ
  textureUpdated : Bool
  instances : ℕ
deriving DecidableEq

/-- The brush state affected by a draw call: the font cache, the current
cache texture (identified by the dimensions it was created at), the
queued sections (each a list of glyph ids), and the draw cache. -/
structure BrushS where
  font_cache : FontCacheS
  font_cache_tex : ℕ × ℕ
  sections : List (List ℕ)
  draw_cache : Option DrawnS
deriving DecidableEq

/-- The render targets' formats. -/
structure Target where
  colorFmt : ℕ
  depthFmt : ℕ
deriving DecidableEq

/-- Outcome of the cache-commit `loop`. -/
inductive LoopOut
  | empty
  | done
  | fail (dims : ℕ × ℕ)
  | spin
deriving DecidableEq

/-- The `loop` of `draw_queued_with_transform`, with `fuel` bounding the
doubling iterations.  First iteration (`rebuilt = false`): queue every
glyph of every section; return `Ok` immediately when there are none (the
sections are NOT cleared on this path).  Then try to commit the cache
(`cache_queued`); on failure double the dimensions, and if the enlarged
texture can be allocated, rebuild the cache with the queue intact, mark
an existing draw cache `texture_updated`, swap the cache texture and
retry; otherwise report the failed dimensions. -/
def drawLoop (commitOk : ℕ × ℕ → List ℕ → Bool) (allocOk : ℕ × ℕ → Bool) :
    ℕ → Bool → BrushS → BrushS × LoopOut
  | 0, _, st => (st, .spin)
  | fuel + 1, rebuilt, st =>
    if rebuilt = false ∧ st.sections.all (fun s => s.isEmpty) = true then
      (st, .empty)
    else
      let st1 := if rebuilt then st else
        { st with font_cache := { st.font_cache with
            queued := st.font_cache.queued ++ st.sections.flatten } }
      if commitOk st1.font_cache.dims st1.font_cache.queued then (st1, .done)
      else
        let dims2 := (2 * st1.font_cache.dims.1, 2 * st1.font_cache.dims.2)
        if allocOk dims2 then
          drawLoop commitOk allocOk fuel true
            { st1 with
              font_cache := { dims := dims2, queued := st1.font_cache.queued },
              font_cache_tex := dims2,
              draw_cache := st1.draw_cache.map (fun c => { c with textureUpdated := true }) }
        else (st1, .fail dims2)

/-- Result of a draw call: the early success without a draw command, a
success that issued a draw of `verts` instances, the texture-allocation
error, or fuel exhaustion (never happens for terminating environments;
the Rust loop has no bound). -/
inductive DrawResult
  | okNoDraw
  | okDrawn (verts : ℕ)
  | errTexture (dims : ℕ × ℕ)
  | outOfFuel
deriving DecidableEq

/-- `pub fn draw_queued_with_transform`: run the commit loop, then — on
the `break` path — build the vertices, update or create the draw cache
(pso rebuilt only when the cached color format key differs from the
target's, texture view rebound only when `texture_updated` was set),
issue the draw, and clear the sections. -/
def draw_queued_with_transform (commitOk : ℕ × ℕ → List ℕ → Bool)
    (allocOk : ℕ × ℕ → Bool) (tgt : Target) (fuel : ℕ) (st : BrushS) :
    BrushS × DrawResult :=
  match drawLoop commitOk allocOk fuel false st with
  | (st1, .spin) => (st1, .outOfFuel)
  | (st1, .empty) => (st1, .okNoDraw)
  | (st1, .fail d) => (st1, .errTexture d)
  | (st1, .done) =>
    let verts := (st1.sections.map List.length).sum
    let cache := match st1.draw_cache with
      | some c =>
        let c1 := { c with instances := verts }
        let c2 := if c1.psoKey ≠ tgt.colorFmt then
            { c1 with psoKey := tgt.colorFmt, psoObj := (tgt.colorFmt, tgt.depthFmt) }
          else c1
        if c2.textureUpdated then
          { c2 with fontTexView := st1.font_cache_tex, textureUpdated := false }
        else c2
      | none =>
        { psoKey := tgt.colorFmt, psoObj := (tgt.colorFmt, tgt.depthFmt),
          fontTexView := st1.font_cache_tex, textureUpdated := false,
          instances := verts }
    ({ st1 with draw_cache := some cache, sections := [] }, .okDrawn verts)

/-- An environment whose commits and allocations always succeed. -/
def alwaysOk2 : ℕ × ℕ → List ℕ → Bool := fun _ _ => true

def alwaysOk1 : ℕ × ℕ → Bool := fun _ => true

/-- Brush state with one queued one-glyph section and a draw cache whose
pso was built for formats `(5, 7)`. -/
def wSt8 : BrushS :=
  { font_cache := ⟨(2, 2), []⟩, font_cache_tex := (2, 2), sections := [[1]],
    draw_cache := some ⟨5, (5, 7), (2, 2), false, 0⟩ }

/-- The state after drawing `wSt8` (with one re-queued section) onto a
target with the same color format `5` but different depth format `9`. -/
def wSt8b : BrushS :=
  (draw_queued_with_transform alwaysOk2 alwaysOk1 ⟨5, 9⟩ 1
    { wSt8 with sections := [[1]] }).1

/-- A commit oracle that succeeds once the atlas is at least 4 wide. -/
def ck7 : ℕ × ℕ → List ℕ → Bool := fun d _ => decide (4 ≤ d.1)

/-- The state after drawing `wSt8` onto a `(5, 7)` target. -/
def wSt7b : BrushS :=
  { font_cache := ⟨(2, 2), [1]⟩, font_cache_tex := (2, 2), sections := [],
    draw_cache := some ⟨5, (5, 7), (2, 2), false, 1⟩ }

/-- Brush state with two queued sections that both contain no glyphs. -/
def wSt9 : BrushS :=
  { font_cache := ⟨(2, 2), []⟩, font_cache_tex := (2, 2), sections := [[], []],
    draw_cache := none }

end Lib

/-! # Theorems -/

/-- `Rat.ceil` agrees with Mathlib's `⌈⬝⌉` on `ℚ`. -/
theorem rat_ceil_eq_ceil (q : ℚ) : (Rat.ceil q : ℤ) = ⌈q⌉ := by
  rw [Rat.ceil]
  split
  · next h =>
      conv_rhs => rw [← (Rat.den_eq_one_iff q).mp h]
      rw [Int.ceil_intCast]
  · next h =>
      rw [← Rat.floor_def]
      have hne : (⌊q⌋ : ℚ) ≠ q := by
        intro he
        apply h
        have hd : ((⌊q⌋ : ℤ) : ℚ).den = 1 := Rat.den_intCast _
        rw [he] at hd
        exact hd
      have h1 : (⌊q⌋ : ℚ) < q := lt_of_le_of_ne (Int.floor_le q) hne
      symm
      rw [Int.ceil_eq_iff]
      constructor
      · push_cast
        simpa using h1
      · push_cast
        exact (Int.lt_floor_add_one q).le

theorem le_ceilQ (q : ℚ) : q ≤ ceilQ q := by
  rw [ceilQ, rat_ceil_eq_ceil]
  exact_mod_cast Int.le_ceil q

theorem ceilQ_pos (q : ℚ) (h : 0 < q) : 1 ≤ ceilQ q := by
  rw [ceilQ, rat_ceil_eq_ceil]
  exact_mod_cast Int.ceil_pos.mpr h

/-- C2, counterexample.  The claim asserts that for EVERY document, font
set, origin and scale the lines of the produced display are pairwise
non-overlapping.  With the (well-formed, dyadic-valued) metrics
`ascent = 1/8, descent = 0, line_gap = 0` at scale 1, a paragraph
consisting of a single line break produces two lines with y-ranges
`[0, 3)` and `[9/4, 9/4 + 3)`: the baseline ceiling
`(18 * 1/8).ceil() = 3` exceeds the per-line advance `18 * 1/8 = 9/4`,
so the first line's end `3` lies strictly after the second line's start
`9/4` — the lines overlap (while their starts are strictly ascending). -/
theorem lines_overlap_cex :
    (display [.Flowing .Paragraph [.LineBreak]] (fun _ => cexFontCeil) 0 0 1).map
        (fun d => d.lines.map Line.bounds_y) =
      some [(0, 3), (Rat.divInt 9 4, Rat.divInt 9 4 + 3)] ∧
    (display [.Flowing .Paragraph [.LineBreak]] (fun _ => cexFontCeil) 0 0 1).map
        (fun d => decide (linesSortedNonoverlap d.lines)) = some false := by
  constructor
  · with_unfolding_all decide
  · with_unfolding_all decide

/-- C3, counterexample.  The claim asserts that a whitespace at span
index 0, character offset 0 is recorded distinctly from "no break point"
and that a later overflow wraps at that whitespace.  In the source both
states are the pair `(0, 0)`: laying out the single span `" abc"` with
every glyph 200 wide (column width 540), the overflow at the third
character finds `break_point == (0, 0)` and force-breaks at the
overflowing character instead, so the first line carries the two glyphs
`" a"` (glyph range `(0, 2)`).  Had the engine wrapped at the recorded
whitespace (span 0, offset 0) as the claim states, the first line's glyph
range would have been `(0, 0)`. -/
theorem break_sentinel_cex :
    (display [.Flowing .Paragraph [.Text .Regular " abc".toList]]
        (fun _ => cexFontWide) 0 0 1).map (fun d => d.lines.map Line.glyphs) =
      some [(0, 2), (2, 4)] ∧ ((0, 2) : ℕ × ℕ) ≠ (0, 0) := by
  constructor
  · with_unfolding_all decide
  · decide

/-- C5, counterexample.  The claim asserts that after an image block's
placeholder line the cursor advances by the line's block scale — said to
incorporate the global scale factor — times `ascent - descent + line_gap`,
plus the scaled paragraph gap.  With metrics `ascent = 1, descent = 0,
line_gap = 0` at global scale 2, two consecutive image blocks produce
lines starting at `0` and `46 = 18 * 1 + 14 * 2`: the image-line advance
uses `FONT_SIZE_REGULAR = 18` WITHOUT the global scale.  A scale-
incorporating advance would have put the second line at
`18 * 2 * 1 + 14 * 2 = 64`. -/
theorem image_advance_cex :
    (display [.Image [], .Image []] (fun _ => cexFontPlain) 0 0 2).map
        (fun d => d.lines.map Line.bounds_y) = some [(0, 36), (46, 82)] ∧
    (46 : ℚ) ≠ 18 * 2 * (1 - 0 + 0) + 14 * 2 := by
  constructor
  · with_unfolding_all decide
  · with_unfolding_all decide

/-- C1, counterexample.  The claim quantifies over every display produced
by `display` (any document, any font set, any origin and scale) and every
`yMin ≤ yMax`.  With the degenerate metrics `ascent = 1, descent = 0,
line_gap = -2` (per-line advance `18 * (1 - 0 - 2) = -18 < 0`) the two
lines of `"x"⏎"y"` have DESCENDING y-ranges `[0, 18)` and `[-18, 0)`, the
binary searches' partition precondition fails, and `clip(-10, -5)`
returns both glyphs even though only the second line satisfies
`start < yMax ∧ end > yMin`. -/
theorem clip_cex :
    (display cexDocTwoLines (fun _ => cexFontGapNeg) 0 0 1).map
        (fun d => decide (d.clip (-10) (-5) = clipSpecGlyphs d (-10) (-5))) =
      some false ∧
    (display cexDocTwoLines (fun _ => cexFontGapNeg) 0 0 1).map
        (fun d => ((d.clip (-10) (-5)).length, (clipSpecGlyphs d (-10) (-5)).length)) =
      some (2, 1) ∧ (-10 : ℚ) ≤ -5 := by
  refine ⟨?_, ?_, by decide⟩
  · with_unfolding_all decide
  · with_unfolding_all decide

/-! ## Properties of the width-measuring scan -/

/-- Break points produced by `scanChars` are either the incoming one or a
character position of the scanned text (span `si`, position in
`[p, p + cs.length)`); a wrap result is moreover never the sentinel
`(0, 0)`. -/
theorem scanChars_cases (font : Font) (bs : ℚ) (si : ℕ) :
    ∀ (cs : List Char) (p : ℕ) (st : ScanSt),
      (∀ st2, scanChars font bs si cs p st = .inl st2 →
        st2.break_point = st.break_point ∨
          (st2.break_point.1 = si ∧ st2.break_point.2 < p + cs.length)) ∧
      (∀ bp, scanChars font bs si cs p st = .inr bp →
        bp ≠ (0, 0) ∧
          (bp = st.break_point ∨ (bp.1 = si ∧ bp.2 < p + cs.length)))
  | [], p, st => by
    refine ⟨fun st2 h => ?_, fun bp h => ?_⟩
    · simp only [scanChars] at h
      cases h
      exact Or.inl rfl
    · simp only [scanChars] at h
      exact Sum.noConfusion h
  | c :: cs, p, st => by
    have ih := scanChars_cases font bs si cs (p + 1)
    by_cases hws : c.isWhitespace = true
    · refine ⟨fun st2 h => ?_, fun bp h => ?_⟩
      · simp only [scanChars, hws, if_pos] at h
        split_ifs at h
        all_goals first
          | exact Sum.noConfusion h
          | (rcases (ih _).1 _ h with h1 | h1
             · dsimp only at h1
               first
                 | exact Or.inl h1
                 | (rw [h1]
                    exact Or.inr ⟨rfl, by simp only [List.length_cons]; omega⟩)
             · obtain ⟨h11, h12⟩ := h1
               exact Or.inr ⟨h11, by simp only [List.length_cons]; omega⟩)
      · simp only [scanChars, hws, if_pos] at h
        split_ifs at h
        all_goals first
          | exact Sum.noConfusion h
          | (cases h
             refine ⟨by assumption, ?_⟩
             first
               | exact Or.inl rfl
               | exact Or.inr ⟨rfl, by simp only [List.length_cons]; omega⟩)
          | (rcases (ih _).2 _ h with ⟨h1, h2 | h2⟩
             · dsimp only at h2
               refine ⟨h1, ?_⟩
               first
                 | (rw [h2]; exact Or.inl rfl)
                 | (rw [h2]
                    exact Or.inr ⟨rfl, by simp only [List.length_cons]; omega⟩)
             · obtain ⟨h21, h22⟩ := h2
               exact ⟨h1, Or.inr ⟨h21, by simp only [List.length_cons]; omega⟩⟩)
    · refine ⟨fun st2 h => ?_, fun bp h => ?_⟩
      · simp only [scanChars, hws, if_neg] at h
        split_ifs at h
        all_goals first
          | exact Sum.noConfusion h
          | (rcases (ih _).1 _ h with h1 | h1
             · dsimp only at h1
               first
                 | exact Or.inl h1
                 | (rw [h1]
                    exact Or.inr ⟨rfl, by simp only [List.length_cons]; omega⟩)
             · obtain ⟨h11, h12⟩ := h1
               exact Or.inr ⟨h11, by simp only [List.length_cons]; omega⟩)
      · simp only [scanChars, hws, if_neg] at h
        split_ifs at h
        all_goals first
          | exact Sum.noConfusion h
          | (cases h
             refine ⟨by assumption, ?_⟩
             first
               | exact Or.inl rfl
               | exact Or.inr ⟨rfl, by simp only [List.length_cons]; omega⟩)
          | (rcases (ih _).2 _ h with ⟨h1, h2 | h2⟩
             · dsimp only at h2
               refine ⟨h1, ?_⟩
               first
                 | (rw [h2]; exact Or.inl rfl)
                 | (rw [h2]
                    exact Or.inr ⟨rfl, by simp only [List.length_cons]; omega⟩)
             · obtain ⟨h21, h22⟩ := h2
               exact ⟨h1, Or.inr ⟨h21, by simp only [List.length_cons]; omega⟩⟩)

/-- A wrap result of the span scan is never the sentinel `(0, 0)` and is a
valid break point of the current line. -/
theorem scanSpans_inr (fonts : ℕ → Font) (bs : ℚ) (sp : ℕ) (content : List Span) :
    ∀ (spans : List Span) (si : ℕ) (st : ScanSt) (bp : ℕ × ℕ),
      spans = content.drop si →
      (st.break_point = (0, 0) ∨
        (st.break_point ≠ (0, 0) ∧ bpValidC content sp st.break_point)) →
      scanSpans fonts bs sp spans si st = (bp, true) →
      bp ≠ (0, 0) ∧ bpValidC content sp bp
  | [], si, st, bp => by
    intro _ _ h
    simp only [scanSpans, Prod.mk.injEq] at h
    exact absurd h.2 (by simp)
  | .LineBreak :: rest, si, st, bp => by
    intro _ _ h
    simp only [scanSpans, Prod.mk.injEq] at h
    obtain ⟨h1, -⟩ := h
    rw [← h1]
    exact ⟨by simp, Or.inl rfl⟩
  | .Text cls text :: rest, si, st, bp => by
    intro hrem hinv h
    have hget : content.get? si = some (.Text cls text) := by
      have h0 : (content.drop si).get? 0 = some (.Text cls text) := by
        rw [← hrem]
        rfl
      rwa [List.get?_drop, Nat.add_zero] at h0
    have hst1 : (if fontIdOf cls ≠ st.last_font_id then
        { st with last_glyph := none, last_font_id := fontIdOf cls } else st).break_point
        = st.break_point := by
      split <;> rfl
    have hlen1 : (if si = 0 then text.drop sp else text).length =
        if si = 0 then text.length - sp else text.length := by
      split <;> simp
    have hvalid : ∀ q : ℕ, q < (if si = 0 then text.drop sp else text).length →
        bpValidC content sp (si, q) := by
      intro q hq
      right
      refine ⟨cls, text, hget, ?_⟩
      rw [hlen1] at hq
      exact hq
    simp only [scanSpans] at h
    rcases hsc : scanChars (fonts (fontIdOf cls)) bs si
        (if si = 0 then text.drop sp else text) 0
        (if fontIdOf cls ≠ st.last_font_id then
          { st with last_glyph := none, last_font_id := fontIdOf cls } else st)
      with st2 | bp2
    · simp only [hsc] at h
      have htail : rest = content.drop (si + 1) := by
        have h5 : (content.drop si).tail = rest := by
          rw [← hrem]
          rfl
        rw [List.tail_drop] at h5
        exact h5.symm
      refine scanSpans_inr fonts bs sp content rest (si + 1) st2 bp htail ?_ h
      rcases (scanChars_cases _ _ _ _ _ _).1 _ hsc with h1 | h1
      · rw [hst1] at h1
        rw [h1]
        exact hinv
      · by_cases hz : st2.break_point = (0, 0)
        · exact Or.inl hz
        · refine Or.inr ⟨hz, ?_⟩
          obtain ⟨h11, h12⟩ := h1
          have : st2.break_point = (si, st2.break_point.2) := by
            rw [← h11]
          rw [this]
          exact hvalid _ (by simpa using h12)
    · simp only [hsc, Prod.mk.injEq] at h
      obtain ⟨hbp, -⟩ := h
      subst hbp
      rcases (scanChars_cases _ _ _ _ _ _).2 _ hsc with ⟨h1, h2 | h2⟩
      · rw [hst1] at h2
        rcases hinv with h3 | h3
        · rw [h2, h3] at h1
          exact absurd rfl h1
        · rw [h2]
          exact ⟨h3.1, h3.2⟩
      · obtain ⟨h21, h22⟩ := h2
        refine ⟨h1, ?_⟩
        have : bp2 = (si, bp2.2) := by rw [← h21]
        rw [this]
        exact hvalid _ (by simpa using h22)

theorem spOk_zero (c : List Span) : spOk c 0 := by
  cases c
  · trivial
  · exact Nat.zero_le _

theorem spanMeasure_cons (s : Span) (rest : List Span) :
    spanMeasure (s :: rest) = spanSize s + 1 + spanMeasure rest := by
  simp [spanMeasure]

theorem spanMeasure_drop_le (n : ℕ) : ∀ (l : List Span), spanMeasure (l.drop n) ≤ spanMeasure l := by
  induction n with
  | zero => intro l; simp
  | succ n ih =>
    intro l
    cases l with
    | nil => simp [spanMeasure]
    | cons s rest =>
      calc spanMeasure (rest.drop n) ≤ spanMeasure rest := ih rest
        _ ≤ spanMeasure (s :: rest) := by rw [spanMeasure_cons]; omega

/-- Whitespace trimming preserves the `start_point` bound and does not
increase the remaining-character measure. -/
theorem trimContent_spec : ∀ (c : List Span) (sp : ℕ), spOk c sp →
    spOk (trimContent c sp).1 (trimContent c sp).2 ∧
    spanMeasure (trimContent c sp).1 - (trimContent c sp).2 ≤ spanMeasure c - sp
  | [], sp => fun h => ⟨h, le_refl _⟩
  | .LineBreak :: rest, sp => fun h => ⟨h, le_refl _⟩
  | .Text cls text :: rest, sp => by
    intro h
    have hsp : sp ≤ text.length := h
    have hm := spanMeasure_cons (.Text cls text) rest
    simp only [spanSize] at hm
    simp only [trimContent]
    split
    · next hemp =>
        have ⟨ih1, ih2⟩ := trimContent_spec rest 0 (spOk_zero rest)
        exact ⟨ih1, by omega⟩
    · next hemp =>
        have h1 : ((text.drop sp).dropWhile Char.isWhitespace).length ≤ text.length - sp := by
          calc ((text.drop sp).dropWhile Char.isWhitespace).length
              ≤ (text.drop sp).length := (List.dropWhile_sublist _).length_le
            _ = text.length - sp := List.length_drop sp text
        dsimp only
        refine ⟨?_, ?_⟩
        · show text.length - _ ≤ text.length
          omega
        · omega

/-- After a wrap at a valid non-sentinel break point, the next
iteration's state satisfies the `start_point` bound and the measure
strictly decreases: the wrap loop makes forward progress. -/
theorem lineNextState_spec (content : List Span) (sp : ℕ) (bp : ℕ × ℕ)
    (hne : bp ≠ (0, 0)) (hval : bpValidC content sp bp) (hsp : spOk content sp)
    (hcne : content ≠ []) :
    spOk (lineNextState content sp bp).1 (lineNextState content sp bp).2 ∧
    spanMeasure (lineNextState content sp bp).1 - (lineNextState content sp bp).2 <
      spanMeasure content - sp := by
  rw [lineNextState]
  by_cases hz : bp.1 = 0
  · rw [if_pos hz, if_pos hz]
    have hb2 : bp.2 ≠ 0 := by
      intro he
      exact hne (Prod.ext hz he)
    rcases hval with h0 | ⟨cls, t, hget, hlt⟩
    · exact absurd h0 hb2
    · rw [hz] at hget
      obtain ⟨rest, hcontent⟩ : ∃ rest, content = .Text cls t :: rest := by
        cases content with
        | nil => exact absurd rfl hcne
        | cons s r =>
          simp only [List.get?] at hget
          cases hget
          exact ⟨r, rfl⟩
      rw [if_pos hz] at hlt
      have hsp2 : spOk content (sp + bp.2) := by
        rw [hcontent]
        show sp + bp.2 ≤ t.length
        omega
      have ⟨ht1, ht2⟩ := trimContent_spec content (sp + bp.2) hsp2
      refine ⟨ht1, ?_⟩
      have hm := spanMeasure_cons (.Text cls t) rest
      simp only [spanSize] at hm
      rw [hcontent] at ht2 hsp ⊢
      have hsp3 : sp ≤ t.length := hsp
      omega
  · rw [if_neg hz, if_neg hz]
    have hsp2 : spOk (content.drop bp.1) bp.2 := by
      rcases hval with h0 | ⟨cls, t, hget, hlt⟩
      · rw [h0]
        exact spOk_zero _
      · rw [if_neg hz] at hlt
        have hhead : (content.drop bp.1).head? = some (.Text cls t) := by
          rw [List.head?_eq_getElem?, List.getElem?_drop, Nat.add_zero, ← List.get?_eq_getElem?]
          exact hget
        cases hd : content.drop bp.1 with
        | nil => rw [hd] at hhead; exact absurd hhead (by simp)
        | cons s r =>
          rw [hd] at hhead
          simp only [List.head?] at hhead
          cases hhead
          exact le_of_lt hlt
    have ⟨ht1, ht2⟩ := trimContent_spec _ _ hsp2
    refine ⟨ht1, ?_⟩
    obtain ⟨s0, rest0, hcontent⟩ : ∃ s0 rest0, content = s0 :: rest0 := by
      cases content with
      | nil => exact absurd rfl hcne
      | cons s r => exact ⟨s, r, rfl⟩
    have hm := spanMeasure_cons s0 rest0
    have hdrople : spanMeasure (content.drop bp.1) ≤ spanMeasure rest0 := by
      obtain ⟨k, hk⟩ : ∃ k, bp.1 = k + 1 := ⟨bp.1 - 1, by omega⟩
      rw [hcontent, hk]
      simp only [List.drop_succ_cons]
      exact spanMeasure_drop_le k rest0
    have hsp3 : sp ≤ spanSize s0 := by
      rw [hcontent] at hsp
      exact hsp
    rw [← hcontent] at hm
    omega

/-- With fuel exceeding the measure, the wrap loop completes (claim C4:
termination). -/
theorem flowLoopF_isSome (fonts : ℕ → Font) (posX bs margin asc desc gap : ℚ) :
    ∀ (fuel : ℕ) (content : List Span) (sp : ℕ) (bullet : Bool) (y : ℚ) (g0 : ℕ),
      spOk content sp → spanMeasure content - sp < fuel →
      (flowLoopF fonts posX bs margin asc desc gap fuel content sp bullet y g0).isSome := by
  intro fuel
  induction fuel with
  | zero =>
    intro content sp bullet y g0 _ hlt
    exact absurd hlt (Nat.not_lt_zero _)
  | succ fuel ih =>
    intro content sp bullet y g0 hsp hlt
    rcases hscan : scanSpans fonts bs sp content 0 ⟨(0, 0), margin, 0, none⟩ with ⟨bp, w⟩
    cases w
    · simp only [flowLoopF]
      rw [hscan]
      simp
    · have hbpv := scanSpans_inr fonts bs sp content content 0 ⟨(0, 0), margin, 0, none⟩ bp
        (List.drop_zero content).symm (Or.inl rfl) hscan
      have hcne : content ≠ [] := by
        intro he
        subst he
        simp only [scanSpans, Prod.mk.injEq] at hscan
        exact absurd hscan.2 (by simp)
      have ⟨hok, hdec⟩ := lineNextState_spec content sp bp hbpv.1 hbpv.2 hsp hcne
      have hsome := ih (lineNextState content sp bp).1 (lineNextState content sp bp).2 false
        (y + bs * (asc - desc + gap))
        (g0 + ((if bullet = true then [bulletGlyph fonts posX bs (y + ceilQ (bs * asc))] else []) ++
          emitSpans fonts bs sp bp (y + ceilQ (bs * asc)) content 0 (posX + margin) 0 none).length)
        hok (by omega)
      simp only [flowLoopF]
      rw [hscan]
      dsimp only
      simp only [eq_self_iff_true, if_true]
      rcases hcall : flowLoopF fonts posX bs margin asc desc gap fuel
          (lineNextState content sp bp).1 (lineNextState content sp bp).2 false
          (y + bs * (asc - desc + gap))
          (g0 + ((if bullet = true then [bulletGlyph fonts posX bs (y + ceilQ (bs * asc))] else []) ++
            emitSpans fonts bs sp bp (y + ceilQ (bs * asc)) content 0 (posX + margin) 0 none).length)
        with _ | ⟨gs2, ls2, y2⟩
      · rw [hcall] at hsome
        simp at hsome
      · simp

theorem layoutBlock_isSome (fonts : ℕ → Font) (posX scale asc desc gap : ℚ)
    (b : Block) (y : ℚ) (g0 : ℕ) :
    (layoutBlock fonts posX scale asc desc gap b y g0).isSome := by
  cases b with
  | Flowing cls content =>
    simp only [layoutBlock]
    have h := flowLoopF_isSome fonts posX (blockFactor cls * FONT_SIZE_REGULAR * scale)
      (blockMargin cls scale) asc desc gap
      (spanMeasure content + 1) content 0 (blockBullet cls) y g0 (spOk_zero content) (by omega)
    simp only [layoutBlock, Option.isSome_map']
    exact h
  | Image source => rfl

theorem displayGo_isSome (fonts : ℕ → Font) (posX scale asc desc gap : ℚ) :
    ∀ (blocks : List Block) (y : ℚ) (g0 : ℕ),
      (displayGo fonts posX scale asc desc gap blocks y g0).isSome
  | [], y, g0 => by simp [displayGo]
  | b :: rest, y, g0 => by
    simp only [displayGo]
    have h := layoutBlock_isSome fonts posX scale asc desc gap b y g0
    rcases hv : layoutBlock fonts posX scale asc desc gap b y g0 with _ | ⟨gs, ls, y1⟩
    · rw [hv] at h
      simp at h
    · dsimp only
      have h2 := displayGo_isSome fonts posX scale asc desc gap rest y1 (g0 + gs.length)
      rcases hv2 : displayGo fonts posX scale asc desc gap rest y1 (g0 + gs.length)
        with _ | ⟨gs2, ls2, y2⟩
      · rw [hv2] at h2
        simp at h2
      · rfl

theorem display_isSome (doc : List Block) (fonts : ℕ → Font) (x y s : ℚ) :
    (display doc fonts x y s).isSome := by
  simp only [display, Option.isSome_map']
  exact displayGo_isSome fonts x s (fonts 0).ascent (fonts 0).descent (fonts 0).line_gap doc y 0

/-- C3, amended.  In the source, "no break point recorded" and
"whitespace recorded at span index 0, character offset 0" share the
representation `(0, 0)` (see `break_sentinel_cex`).  Consequently a
zero-offset whitespace is never usable as a break opportunity; what DOES
hold is: whenever the scan wraps, the break point it returns differs from
the sentinel `(0, 0)` — a line whose only recorded whitespace is at
`(0, 0)` force-breaks at the character that caused the overflow instead. -/
theorem wrap_break_point_ne_sentinel (fonts : ℕ → Font) (bs : ℚ) (sp : ℕ)
    (content : List Span) (margin : ℚ) (bp : ℕ × ℕ)
    (h : scanSpans fonts bs sp content 0 ⟨(0, 0), margin, 0, none⟩ = (bp, true)) :
    bp ≠ (0, 0) :=
  (scanSpans_inr fonts bs sp content content 0 ⟨(0, 0), margin, 0, none⟩ bp
    (List.drop_zero content).symm (Or.inl rfl) h).1

/-- Witness for `wrap_break_point_ne_sentinel`: the scan of `" abc"` with
200-wide glyphs wraps with break point `(0, 2)`. -/
theorem wrap_break_point_ne_sentinel_witness :
    scanSpans (fun _ => cexFontWide) 18 0 [.Text .Regular " abc".toList] 0
      ⟨(0, 0), 0, 0, none⟩ = ((0, 2), true) ∧ ((0, 2) : ℕ × ℕ) ≠ (0, 0) :=
  ⟨by with_unfolding_all decide,
    wrap_break_point_ne_sentinel (fun _ => cexFontWide) 18 0
      [.Text .Regular " abc".toList] 0 (0, 2) (by with_unfolding_all decide)⟩

/-- Closed form of the wrap loop's output: the lines form an arithmetic
y-progression starting at the entry cursor, the exit cursor is the entry
cursor advanced once per line, and the glyph ranges tile
`[g0, g0 + gs.length)` in order. -/
theorem flowLoopF_lines (fonts : ℕ → Font) (posX bs margin asc desc gap : ℚ) :
    ∀ (fuel : ℕ) (content : List Span) (sp : ℕ) (bullet : Bool) (y : ℚ) (g0 : ℕ)
      (gs : List LayoutGlyph) (ls : List Line) (y2 : ℚ),
      flowLoopF fonts posX bs margin asc desc gap fuel content sp bullet y g0 =
        some (gs, ls, y2) →
      yProgression (bs * (asc - desc + gap)) (ceilQ (bs * asc) - bs * desc) y ls ∧
      y2 = y + ls.length * (bs * (asc - desc + gap)) ∧
      linesChainB g0 ls (g0 + gs.length) = true := by
  intro fuel
  induction fuel with
  | zero =>
    intro content sp bullet y g0 gs ls y2 h
    exact Option.noConfusion h
  | succ fuel ih =>
    intro content sp bullet y g0 gs ls y2 h
    rcases hscan : scanSpans fonts bs sp content 0 ⟨(0, 0), margin, 0, none⟩ with ⟨bp, w⟩
    rw [flowLoopF] at h
    rw [hscan] at h
    cases w
    · dsimp only at h
      simp only [Bool.false_eq_true, if_false] at h
      rw [Option.some.injEq, Prod.mk.injEq, Prod.mk.injEq] at h
      obtain ⟨hgs, hls, hy2⟩ := h
      subst hgs hls hy2
      refine ⟨⟨?_, trivial⟩, ?_, ?_⟩
      · rw [Prod.mk.injEq]
        exact ⟨rfl, by ring⟩
      · simp only [List.length_singleton]
        push_cast
        ring
      · simp [linesChainB]
    · dsimp only at h
      simp only [eq_self_iff_true, if_true] at h
      rcases hcall : flowLoopF fonts posX bs margin asc desc gap fuel
          (lineNextState content sp bp).1 (lineNextState content sp bp).2 false
          (y + bs * (asc - desc + gap))
          (g0 + ((if bullet = true then [bulletGlyph fonts posX bs (y + ceilQ (bs * asc))] else []) ++
            emitSpans fonts bs sp bp (y + ceilQ (bs * asc)) content 0 (posX + margin) 0 none).length)
        with _ | ⟨gs2, ls2, y2b⟩
      · rw [hcall] at h
        exact Option.noConfusion h
      · rw [hcall] at h
        rw [Option.some.injEq, Prod.mk.injEq, Prod.mk.injEq] at h
        obtain ⟨hgs, hls, hy2⟩ := h
        have ⟨ihp, ihy, ihc⟩ := ih _ _ false _ _ _ _ _ hcall
        subst hgs hls hy2
        refine ⟨⟨?_, ihp⟩, ?_, ?_⟩
        · rw [Prod.mk.injEq]
          exact ⟨rfl, by ring⟩
        · rw [ihy]
          simp only [List.length_cons]
          push_cast
          ring
        · simp only [linesChainB, Bool.and_eq_true, beq_iff_eq]
          refine ⟨trivial, ?_⟩
          convert ihc using 2 <;> simp [List.length_append] <;> omega

/-- An arithmetic y-progression with positive advance and height at most
the advance gives ordered, bounded, non-overlapping lines. -/
theorem yProgression_linesBetween (adv H : ℚ) (hadv : 0 < adv) (hH : H ≤ adv) :
    ∀ (ls : List Line) (y : ℚ), yProgression adv H y ls →
      (∀ L ∈ ls, y ≤ L.bounds_y.1 ∧ L.bounds_y.1 < y + ls.length * adv ∧
        L.bounds_y.2 ≤ y + ls.length * adv) ∧
      List.Chain' (fun L M => L.bounds_y.1 < M.bounds_y.1 ∧ L.bounds_y.2 ≤ M.bounds_y.1) ls
  | [], y => by
    intro _
    exact ⟨by simp, List.chain'_nil⟩
  | L :: ls, y => by
    intro hp
    obtain ⟨hL, hp2⟩ := hp
    have ⟨ih1, ih2⟩ := yProgression_linesBetween adv H hadv hH ls (y + adv) hp2
    have hlen : ((L :: ls).length : ℚ) * adv = adv + ls.length * adv := by
      simp only [List.length_cons]
      push_cast
      ring
    constructor
    · intro M hM
      rcases List.mem_cons.mp hM with hM | hM
      · subst hM
        rw [hL]
        refine ⟨le_refl _, ?_, ?_⟩
        · dsimp only
          rw [hlen]
          have h0 : (0 : ℚ) ≤ ls.length * adv := by
            positivity
          linarith
        · dsimp only
          rw [hlen]
          have h0 : (0 : ℚ) ≤ ls.length * adv := by
            positivity
          linarith
      · have ⟨m1, m2, m3⟩ := ih1 M hM
        rw [hlen]
        exact ⟨by linarith, by linarith, by linarith⟩
    · cases ls with
      | nil => simp
      | cons M ms =>
        obtain ⟨hM, -⟩ := hp2
        refine List.Chain'.cons ?_ ih2
        rw [hL, hM]
        constructor
        · dsimp only
          linarith
        · dsimp only
          linarith

/-- Composing the ordered-lines invariant across consecutive segments. -/
theorem linesBetween_append (y y1 y2 : ℚ) (ls1 ls2 : List Line)
    (h1 : linesBetween y y1 ls1) (h2 : linesBetween y1 y2 ls2) :
    linesBetween y y2 (ls1 ++ ls2) := by
  obtain ⟨hb1, hc1, hy1⟩ := h1
  obtain ⟨hb2, hc2, hy2⟩ := h2
  refine ⟨?_, ?_, by linarith⟩
  · intro L hL
    rcases List.mem_append.mp hL with hL | hL
    · have ⟨a1, a2, a3⟩ := hb1 L hL
      exact ⟨a1, by linarith, by linarith⟩
    · have ⟨a1, a2, a3⟩ := hb2 L hL
      exact ⟨by linarith, a2, a3⟩
  · refine List.Chain'.append hc1 hc2 ?_
    intro x hx z hz
    have hxm : x ∈ ls1 := List.mem_of_mem_getLast? hx
    have hzm : z ∈ ls2 := List.mem_of_mem_head? hz
    have ⟨a1, a2, a3⟩ := hb1 x hxm
    have ⟨b1, b2, b3⟩ := hb2 z hzm
    exact ⟨by linarith, by linarith⟩

/-- Glyph-range tiling composes across consecutive segments. -/
theorem linesChainB_append : ∀ (ls1 : List Line) (ls2 : List Line) (a m k : ℕ),
    linesChainB a ls1 m = true → linesChainB m ls2 k = true →
    linesChainB a (ls1 ++ ls2) k = true
  | [], ls2, a, m, k => by
    intro h1 h2
    simp only [linesChainB, beq_iff_eq] at h1
    subst h1
    exact h2
  | L :: ls1, ls2, a, m, k => by
    intro h1 h2
    simp only [linesChainB, Bool.and_eq_true, beq_iff_eq] at h1 ⊢
    exact ⟨h1.1, linesChainB_append ls1 ls2 _ m k h1.2 h2⟩

theorem blockFactor_pos (cls : BlockClass) : 0 < blockFactor cls := by
  cases cls <;> simp only [blockFactor, Rat.divInt_eq_div] <;> norm_num

/-- Per-block ordering: under positive scale and advance, and the two
ceiling conditions, each block's lines lie between the entry and exit
cursor positions, ordered and non-overlapping, and their glyph ranges
tile the emitted glyph interval. -/
theorem layoutBlock_ordered (fonts : ℕ → Font) (posX s a d g : ℚ)
    (b : Block) (y : ℚ) (g0 : ℕ) (gs : List LayoutGlyph) (ls : List Line) (y2 : ℚ)
    (hs : 0 < s) (hadv : 0 < a - d + g)
    (h3 : ∀ cls : BlockClass, ceilQ (blockFactor cls * FONT_SIZE_REGULAR * s * a) ≤
      blockFactor cls * FONT_SIZE_REGULAR * s * (a + g))
    (h4 : ceilQ (FONT_SIZE_REGULAR * s * a) ≤
      FONT_SIZE_REGULAR * (a + g) + PARAGRAPH_SPACING * s)
    (h : layoutBlock fonts posX s a d g b y g0 = some (gs, ls, y2)) :
    linesBetween y y2 ls ∧ linesChainB g0 ls (g0 + gs.length) = true := by
  cases b with
  | Flowing cls content =>
    simp only [layoutBlock] at h
    rcases hloop : flowLoopF fonts posX (blockFactor cls * FONT_SIZE_REGULAR * s)
        (blockMargin cls s) a d g (spanMeasure content + 1) content 0 (blockBullet cls) y g0
      with _ | ⟨gs1, ls1, y1⟩
    · rw [hloop] at h
      exact Option.noConfusion h
    · rw [hloop] at h
      simp only [Option.map_some', Option.some.injEq, Prod.mk.injEq] at h
      obtain ⟨rfl, rfl, rfl⟩ := h
      have ⟨hprog, hyf, hchain⟩ := flowLoopF_lines fonts posX
        (blockFactor cls * FONT_SIZE_REGULAR * s) (blockMargin cls s) a d g
        (spanMeasure content + 1) content 0 (blockBullet cls) y g0 gs1 ls1 y1 hloop
      have hbs : 0 < blockFactor cls * FONT_SIZE_REGULAR * s := by
        have hf := blockFactor_pos cls
        rw [FONT_SIZE_REGULAR]
        positivity
      have hadv2 : 0 < blockFactor cls * FONT_SIZE_REGULAR * s * (a - d + g) :=
        mul_pos hbs hadv
      have hH : ceilQ (blockFactor cls * FONT_SIZE_REGULAR * s * a) -
          blockFactor cls * FONT_SIZE_REGULAR * s * d ≤
          blockFactor cls * FONT_SIZE_REGULAR * s * (a - d + g) := by
        have h5 := h3 cls
        have h6 : blockFactor cls * FONT_SIZE_REGULAR * s * (a - d + g) =
            blockFactor cls * FONT_SIZE_REGULAR * s * (a + g) -
            blockFactor cls * FONT_SIZE_REGULAR * s * d := by
          ring
        linarith
      have ⟨hb, hc⟩ := yProgression_linesBetween _ _ hadv2 hH ls1 y hprog
      have hgap : 0 ≤ PARAGRAPH_SPACING * s := by
        rw [PARAGRAPH_SPACING]
        positivity
      have h0 : (0 : ℚ) ≤
          ls1.length * (blockFactor cls * FONT_SIZE_REGULAR * s * (a - d + g)) := by
        positivity
      refine ⟨⟨?_, hc, ?_⟩, hchain⟩
      · intro L hL
        have ⟨a1, a2, a3⟩ := hb L hL
        exact ⟨a1, by linarith, by linarith⟩
      · linarith
  | Image source =>
    simp only [layoutBlock, Option.some.injEq, Prod.mk.injEq] at h
    obtain ⟨rfl, rfl, rfl⟩ := h
    rw [FONT_SIZE_REGULAR, PARAGRAPH_SPACING] at h4 ⊢
    have hadv3 : 0 < (18 : ℚ) * (a - d + g) := by positivity
    have hgap : 0 < (14 : ℚ) * s := by positivity
    constructor
    · refine ⟨?_, by simp, by linarith⟩
      intro L hL
      simp only [List.mem_singleton] at hL
      subst hL
      dsimp only
      refine ⟨le_refl _, by linarith, by linarith⟩
    · simp [linesChainB]

/-- Block-by-block composition of the ordering invariant over `displayGo`. -/
theorem displayGo_ordered (fonts : ℕ → Font) (posX s a d g : ℚ)
    (hs : 0 < s) (hadv : 0 < a - d + g)
    (h3 : ∀ cls : BlockClass, ceilQ (blockFactor cls * FONT_SIZE_REGULAR * s * a) ≤
      blockFactor cls * FONT_SIZE_REGULAR * s * (a + g))
    (h4 : ceilQ (FONT_SIZE_REGULAR * s * a) ≤
      FONT_SIZE_REGULAR * (a + g) + PARAGRAPH_SPACING * s) :
    ∀ (blocks : List Block) (y : ℚ) (g0 : ℕ)
      (gs : List LayoutGlyph) (ls : List Line) (y2 : ℚ),
      displayGo fonts posX s a d g blocks y g0 = some (gs, ls, y2) →
      linesBetween y y2 ls ∧ linesChainB g0 ls (g0 + gs.length) = true
  | [], y, g0, gs, ls, y2 => by
    intro h
    simp only [displayGo, Option.some.injEq, Prod.mk.injEq] at h
    obtain ⟨rfl, rfl, rfl⟩ := h
    exact ⟨⟨by simp, List.chain'_nil, le_refl y⟩, by simp [linesChainB]⟩
  | b :: rest, y, g0, gs, ls, y2 => by
    intro h
    rw [displayGo] at h
    rcases h1 : layoutBlock fonts posX s a d g b y g0 with _ | ⟨gs1, ls1, y1⟩
    · rw [h1] at h
      exact Option.noConfusion h
    · rw [h1] at h
      dsimp only at h
      rcases h2 : displayGo fonts posX s a d g rest y1 (g0 + gs1.length)
        with _ | ⟨gs2, ls2, y2b⟩
      · rw [h2] at h
        exact Option.noConfusion h
      · rw [h2] at h
        dsimp only at h
        rw [Option.some.injEq, Prod.mk.injEq, Prod.mk.injEq] at h
        obtain ⟨rfl, rfl, rfl⟩ := h
        have ⟨p1, p2⟩ := layoutBlock_ordered fonts posX s a d g b y g0 gs1 ls1 y1
          hs hadv h3 h4 h1
        have ⟨q1, q2⟩ := displayGo_ordered fonts posX s a d g hs hadv h3 h4
          rest y1 (g0 + gs1.length) gs2 ls2 y2b h2
        refine ⟨linesBetween_append y y1 y2b ls1 ls2 p1 q1, ?_⟩
        have hcomp := linesChainB_append ls1 ls2 g0 (g0 + gs1.length)
          (g0 + gs1.length + gs2.length) p2 q2
        convert hcomp using 2
        simp only [List.length_append]
        omega

/-- C2 (amended): whenever the global scale is positive, the base font's
unit vertical advance `ascent - descent + line_gap` is positive, and the
baseline-ceiling slack conditions hold at every block scale (in
particular for every font whose metrics make each line's rounded-up
baseline fit within the line advance), the lines of the produced
`Display` are strictly ascending by start-y and pairwise non-overlapping,
and their glyph ranges tile `[0, glyphs.length)` in emission order.  The
unconditional claim is false: `lines_overlap_cex` exhibits a font with
`ascent = 1/8` whose baseline ceiling overshoots the line advance, making
consecutive lines overlap. -/
theorem lines_sorted_nonoverlap_of_metrics (document : List Block) (fonts : ℕ → Font)
    (posX posY s : ℚ) (dsp : Display)
    (hs : 0 < s)
    (hadv : 0 < (fonts 0).ascent - (fonts 0).descent + (fonts 0).line_gap)
    (h3 : ∀ cls : BlockClass,
      ceilQ (blockFactor cls * FONT_SIZE_REGULAR * s * (fonts 0).ascent) ≤
      blockFactor cls * FONT_SIZE_REGULAR * s * ((fonts 0).ascent + (fonts 0).line_gap))
    (h4 : ceilQ (FONT_SIZE_REGULAR * s * (fonts 0).ascent) ≤
      FONT_SIZE_REGULAR * ((fonts 0).ascent + (fonts 0).line_gap) + PARAGRAPH_SPACING * s)
    (h : display document fonts posX posY s = some dsp) :
    linesSortedNonoverlap dsp.lines ∧
    linesChainB 0 dsp.lines dsp.glyphs.length = true := by
  simp only [display] at h
  rcases hgo : displayGo fonts posX s (fonts 0).ascent (fonts 0).descent (fonts 0).line_gap
      document posY 0 with _ | ⟨gs, ls, yf⟩
  · rw [hgo] at h
    exact Option.noConfusion h
  · rw [hgo] at h
    simp only [Option.map_some', Option.some.injEq] at h
    subst h
    have ⟨⟨hb, hc, hy⟩, hchain⟩ := displayGo_ordered fonts posX s
      (fonts 0).ascent (fonts 0).descent (fonts 0).line_gap hs hadv h3 h4
      document posY 0 gs ls yf hgo
    constructor
    · haveI : IsTrans Line
          (fun L M => L.bounds_y.1 < M.bounds_y.1 ∧ L.bounds_y.2 ≤ M.bounds_y.1) :=
        ⟨fun x y z h1 h2 => ⟨lt_trans h1.1 h2.1, le_of_lt (lt_of_le_of_lt h1.2 h2.1)⟩⟩
      exact List.chain'_iff_pairwise.mp hc
    · simpa using hchain

theorem lines_sorted_nonoverlap_of_metrics_witness :
    display wDoc2 (fun _ => wFont2) 0 0 1 = some wDisp2 ∧
    linesSortedNonoverlap wDisp2.lines ∧
    linesChainB 0 wDisp2.lines wDisp2.glyphs.length = true :=
  have h : display wDoc2 (fun _ => wFont2) 0 0 1 = some wDisp2 := by
    with_unfolding_all decide
  have hm := lines_sorted_nonoverlap_of_metrics wDoc2 (fun _ => wFont2) 0 0 1 wDisp2
    (by norm_num) (by with_unfolding_all decide)
    (fun cls => by cases cls <;> with_unfolding_all decide)
    (by with_unfolding_all decide) h
  ⟨h, hm.1, hm.2⟩

/-- C5 (amended): after a block the cursor has advanced by one line
advance per physical line plus the scaled paragraph gap, where the line
advance is the block scale times `ascent - descent + line_gap` — but the
block scale of an image block is the *unscaled* `FONT_SIZE_REGULAR`: the
image branch computes its advance from `FONT_SIZE_REGULAR` without
multiplying by the global scale factor, contradicting the original
claim's "incorporates the global scale factor" for image blocks
(`image_advance_cex`). -/
theorem layout_block_cursor_advance (fonts : ℕ → Font) (posX s a d g : ℚ)
    (b : Block) (y : ℚ) (g0 : ℕ) (gs : List LayoutGlyph) (ls : List Line) (y2 : ℚ)
    (h : layoutBlock fonts posX s a d g b y g0 = some (gs, ls, y2)) :
    y2 = y + ls.length * (blockScale s b * (a - d + g)) + PARAGRAPH_SPACING * s := by
  cases b with
  | Flowing cls content =>
    simp only [layoutBlock] at h
    rcases hloop : flowLoopF fonts posX (blockFactor cls * FONT_SIZE_REGULAR * s)
        (blockMargin cls s) a d g (spanMeasure content + 1) content 0 (blockBullet cls) y g0
      with _ | ⟨gs1, ls1, y1⟩
    · rw [hloop] at h
      exact Option.noConfusion h
    · rw [hloop] at h
      simp only [Option.map_some', Option.some.injEq, Prod.mk.injEq] at h
      obtain ⟨rfl, rfl, rfl⟩ := h
      obtain ⟨-, hyf, -⟩ := flowLoopF_lines fonts posX
        (blockFactor cls * FONT_SIZE_REGULAR * s) (blockMargin cls s) a d g
        (spanMeasure content + 1) content 0 (blockBullet cls) y g0 gs1 ls1 y1 hloop
      rw [hyf, blockScale]
  | Image source =>
    simp only [layoutBlock, Option.some.injEq, Prod.mk.injEq] at h
    obtain ⟨rfl, rfl, rfl⟩ := h
    simp only [List.length_singleton, blockScale]
    push_cast
    ring

theorem layout_block_cursor_advance_witness :
    layoutBlock (fun _ => cexFontPlain) 0 1 1 0 0
        (.Flowing .Paragraph [.LineBreak]) 0 0 =
      some (([] : List LayoutGlyph),
        ([⟨(0, 18), (0, 0)⟩, ⟨(18, 36), (0, 0)⟩] : List Line), (50 : ℚ)) ∧
    (50 : ℚ) = 0 + (([⟨(0, 18), (0, 0)⟩, ⟨(18, 36), (0, 0)⟩] : List Line).length) *
      (blockScale 1 (.Flowing .Paragraph [.LineBreak]) * (1 - 0 + 0)) +
      PARAGRAPH_SPACING * 1 :=
  have h : layoutBlock (fun _ => cexFontPlain) 0 1 1 0 0
      (.Flowing .Paragraph [.LineBreak]) 0 0 =
    some (([] : List LayoutGlyph),
      ([⟨(0, 18), (0, 0)⟩, ⟨(18, 36), (0, 0)⟩] : List Line), (50 : ℚ)) := by
    with_unfolding_all decide
  ⟨h, layout_block_cursor_advance (fun _ => cexFontPlain) 0 1 1 0 0
    (.Flowing .Paragraph [.LineBreak]) 0 0 [] [⟨(0, 18), (0, 0)⟩, ⟨(18, 36), (0, 0)⟩] 50 h⟩

/-- The emission of a character list emits exactly one glyph per
character. -/
theorem emitChars_length (font : Font) (bs : ℚ) (color : Color) (fid : ℕ) (baseY : ℚ) :
    ∀ (cs : List Char) (caret : ℚ) (lg : Option ℕ),
      (emitChars font bs color fid baseY cs caret lg).1.length = cs.length
  | [], _, _ => rfl
  | c :: cs, caret, lg => by
    simp only [emitChars, List.length_cons]
    rw [emitChars_length font bs color fid baseY cs]

/-- `dropWhile` is the identity on a list without whitespace. -/
theorem dropWhile_eq_self_of_noWs :
    ∀ (l : List Char), (∀ c ∈ l, c.isWhitespace = false) →
      l.dropWhile Char.isWhitespace = l
  | [], _ => rfl
  | c :: cs, h => by
    have hc := h c (List.mem_cons_self c cs)
    simp [List.dropWhile_cons, hc]

/-- A wrap produced while scanning a single-span line starting with the
sentinel break point lies strictly inside the sliced text of that span:
span index `0` and a positive character position below the slice length. -/
theorem scanSpans_single_inr (fonts : ℕ → Font) (bs : ℚ) (sp : ℕ) (cls : SpanClass)
    (w : List Char) (st : ScanSt) (bp : ℕ × ℕ)
    (hst : st.break_point = (0, 0))
    (h : scanSpans fonts bs sp [.Text cls w] 0 st = (bp, true)) :
    bp.1 = 0 ∧ 0 < bp.2 ∧ bp.2 < (w.drop sp).length := by
  simp only [scanSpans, if_true] at h
  rcases hsc : scanChars (fonts (fontIdOf cls)) bs 0 (w.drop sp) 0
      (if fontIdOf cls ≠ st.last_font_id then
        { st with last_glyph := none, last_font_id := fontIdOf cls } else st)
    with st2 | bp2
  · simp only [hsc, Prod.mk.injEq] at h
    exact absurd h.2 (by simp)
  · simp only [hsc, Prod.mk.injEq] at h
    obtain ⟨hbp, -⟩ := h
    subst hbp
    have hst1 : (if fontIdOf cls ≠ st.last_font_id then
        { st with last_glyph := none, last_font_id := fontIdOf cls } else st).break_point
        = (0, 0) := by
      rw [← hst]
      split <;> rfl
    rcases (scanChars_cases _ _ _ _ _ _).2 _ hsc with ⟨h1, h2 | h2⟩
    · rw [hst1] at h2
      exact absurd h2 h1
    · obtain ⟨h21, h22⟩ := h2
      refine ⟨h21, ?_, by simpa using h22⟩
      rcases Nat.eq_zero_or_pos bp2.2 with hz | hz

      · exfalso
        apply h1
        have : bp2 = (bp2.1, bp2.2) := rfl
        rw [this, h21, hz]
      · exact hz

/-- On a single-span document whose text has no whitespace, every line
the wrap loop emits contains at least one glyph: a forced break always
happens strictly after the line's first character. -/
theorem flowLoopF_word (fonts : ℕ → Font) (posX bs margin asc desc gap : ℚ)
    (cls : SpanClass) (w : List Char) (hw : ∀ c ∈ w, c.isWhitespace = false) :
    ∀ (fuel sp : ℕ) (bullet : Bool) (y : ℚ) (g0 : ℕ)
      (gs : List LayoutGlyph) (ls : List Line) (y2 : ℚ),
      sp < w.length →
      flowLoopF fonts posX bs margin asc desc gap fuel [.Text cls w] sp bullet y g0 =
        some (gs, ls, y2) →
      ∀ L ∈ ls, L.glyphs.1 < L.glyphs.2 := by
  intro fuel
  induction fuel with
  | zero =>
    intro sp bullet y g0 gs ls y2 hsp h
    exact Option.noConfusion h
  | succ fuel ih =>
    intro sp bullet y g0 gs ls y2 hsp h
    rcases hscan : scanSpans fonts bs sp [.Text cls w] 0 ⟨(0, 0), margin, 0, none⟩
      with ⟨bp, wf⟩
    rw [flowLoopF] at h
    rw [hscan] at h
    cases wf
    · dsimp only at h
      simp only [Bool.false_eq_true, if_false] at h
      rw [Option.some.injEq, Prod.mk.injEq, Prod.mk.injEq] at h
      obtain ⟨hgs, hls, hy2⟩ := h
      subst hgs hls hy2
      intro L hL
      simp only [List.mem_singleton] at hL
      subst hL
      dsimp only
      have hel : (emitSpans fonts bs sp ((1 : ℕ) + 1, 0) (y + ceilQ (bs * asc))
          [Span.Text cls w] 0 (posX + margin) 0 none).length = (w.drop sp).length := by
        simp only [emitSpans, eq_self_iff_true, if_true]
        rw [if_neg (by omega : ¬ (0 : ℕ) = 1 + 1)]
        simp only [List.length_append, emitChars_length]
        simp [emitSpans]
      simp only [List.length_append, List.length_singleton, hel]
      have hwl : 0 < (w.drop sp).length := by
        rw [List.length_drop]
        omega
      omega
    · dsimp only at h
      simp only [eq_self_iff_true, if_true] at h
      obtain ⟨hbp1, hbp2, hbp3⟩ :=
        scanSpans_single_inr fonts bs sp cls w _ bp rfl hscan
      rcases hcall : flowLoopF fonts posX bs margin asc desc gap fuel
          (lineNextState [Span.Text cls w] sp bp).1 (lineNextState [Span.Text cls w] sp bp).2
          false (y + bs * (asc - desc + gap))
          (g0 + ((if bullet = true then
              [bulletGlyph fonts posX bs (y + ceilQ (bs * asc))] else []) ++
            emitSpans fonts bs sp bp (y + ceilQ (bs * asc)) [Span.Text cls w] 0
              (posX + margin) 0 none).length)
        with _ | ⟨gs2, ls2, y2b⟩
      · rw [hcall] at h
        exact Option.noConfusion h
      · rw [hcall] at h
        rw [Option.some.injEq, Prod.mk.injEq, Prod.mk.injEq] at h
        obtain ⟨hgs, hls, hy2⟩ := h
        subst hgs hls hy2
        have hwd : (w.drop sp).length = w.length - sp := List.length_drop sp w
        have hsum : sp + bp.2 < w.length := by omega
        have hnext : lineNextState [Span.Text cls w] sp bp = ([Span.Text cls w], sp + bp.2) := by
          simp only [lineNextState, hbp1, eq_self_iff_true, if_true, trimContent]
          have hdw : (w.drop (sp + bp.2)).dropWhile Char.isWhitespace = w.drop (sp + bp.2) :=
            dropWhile_eq_self_of_noWs _ (fun c hc => hw c (List.mem_of_mem_drop hc))
          rw [hdw]
          rw [if_neg]
          · rw [Prod.mk.injEq]
            refine ⟨rfl, ?_⟩
            rw [List.length_drop]
            omega
          · simp only [List.isEmpty_iff, List.drop_eq_nil_iff_le, not_le]
            omega
        rw [hnext] at hcall
        intro L hL
        rcases List.mem_cons.mp hL with hL | hL
        · subst hL
          dsimp only
          have hel : (emitSpans fonts bs sp bp (y + ceilQ (bs * asc))
              [Span.Text cls w] 0 (posX + margin) 0 none).length =
              min bp.2 (w.drop sp).length := by
            simp only [emitSpans, hbp1, eq_self_iff_true, if_true, emitChars_length,
              List.length_take]
          have hmin : 0 < min bp.2 (w.drop sp).length := by
            rw [Nat.lt_min]
            exact ⟨hbp2, lt_trans hbp2 hbp3⟩
          simp only [List.length_append, hel]
          omega
        · exact ih (sp + bp.2) false _ _ _ _ _ hsum hcall L hL

/-- C4: layout always terminates — the fuel `spanMeasure content + 1`
chosen by `layoutBlock` is always sufficient, so `display` returns a
result for every input — and, on a document consisting of a single
whitespace-free word, every emitted physical line contains at least one
glyph: the forced break at the character that caused the overflow always
happens strictly after the line's first character, so the wrap loop makes
forward progress. -/
theorem layout_terminates_and_forced_break_progress :
    (∀ (doc : List Block) (fonts : ℕ → Font) (x y s : ℚ),
      (display doc fonts x y s).isSome = true) ∧
    (∀ (fonts : ℕ → Font) (x y s : ℚ) (cls : SpanClass) (w : List Char) (d : Display),
      (∀ c ∈ w, c.isWhitespace = false) → w ≠ [] →
      display [.Flowing .Paragraph [.Text cls w]] fonts x y s = some d →
      ∀ L ∈ d.lines, L.glyphs.1 < L.glyphs.2) := by
  constructor
  · exact display_isSome
  · intro fonts x y s cls w d hw hne hd L hL
    simp only [display] at hd
    rcases hgo : displayGo fonts x s (fonts 0).ascent (fonts 0).descent (fonts 0).line_gap
        [.Flowing .Paragraph [.Text cls w]] y 0 with _ | ⟨gs, ls, yf⟩
    · rw [hgo] at hd
      exact Option.noConfusion hd
    · rw [hgo] at hd
      simp only [Option.map_some', Option.some.injEq] at hd
      subst hd
      dsimp only at hL
      rw [displayGo] at hgo
      rcases h1 : layoutBlock fonts x s (fonts 0).ascent (fonts 0).descent (fonts 0).line_gap
          (.Flowing .Paragraph [.Text cls w]) y 0 with _ | ⟨gs1, ls1, y1⟩
      · rw [h1] at hgo
        exact Option.noConfusion hgo
      · rw [h1] at hgo
        dsimp only at hgo
        simp only [displayGo, Option.some.injEq, Prod.mk.injEq, List.append_nil] at hgo
        obtain ⟨-, hls, -⟩ := hgo
        subst hls
        simp only [layoutBlock] at h1
        rcases hloop : flowLoopF fonts x (blockFactor .Paragraph * FONT_SIZE_REGULAR * s)
            (blockMargin .Paragraph s) (fonts 0).ascent (fonts 0).descent (fonts 0).line_gap
            (spanMeasure [.Text cls w] + 1) [.Text cls w] 0 (blockBullet .Paragraph) y 0
          with _ | ⟨gsf, lsf, yf2⟩
        · rw [hloop] at h1
          exact Option.noConfusion h1
        · rw [hloop] at h1
          simp only [Option.map_some', Option.some.injEq, Prod.mk.injEq] at h1
          obtain ⟨-, hls1, -⟩ := h1
          subst hls1
          exact flowLoopF_word fonts x (blockFactor .Paragraph * FONT_SIZE_REGULAR * s)
            (blockMargin .Paragraph s) (fonts 0).ascent (fonts 0).descent (fonts 0).line_gap
            cls w hw _ 0 (blockBullet .Paragraph) y 0 gsf lsf yf2
            (List.length_pos.mpr hne) hloop L hL

theorem layout_terminates_and_forced_break_progress_witness :
    display [.Flowing .Paragraph [.Text .Regular ['a', 'b', 'c']]]
        (fun _ => cexFontWide) 0 0 1 = some wDisp4 ∧
    (∀ c ∈ (['a', 'b', 'c'] : List Char), c.isWhitespace = false) ∧
    (['a', 'b', 'c'] : List Char) ≠ [] ∧
    (∀ L ∈ wDisp4.lines, L.glyphs.1 < L.glyphs.2) :=
  have h : display [.Flowing .Paragraph [.Text .Regular ['a', 'b', 'c']]]
      (fun _ => cexFontWide) 0 0 1 = some wDisp4 := by
    with_unfolding_all decide
  ⟨h, by decide, by decide,
    layout_terminates_and_forced_break_progress.2 (fun _ => cexFontWide) 0 0 1
      .Regular ['a', 'b', 'c'] wDisp4 (by decide) (by decide) h⟩

/-- A downward-closed predicate on indices below `n` has a partition
point. -/
theorem exists_partition_point (P : ℕ → Prop) :
    ∀ (n : ℕ), (∀ i j, i ≤ j → j < n → P j → P i) →
      ∃ k, k ≤ n ∧ ∀ i, i < n → (P i ↔ i < k)
  | 0, _ => ⟨0, le_refl 0, fun i hi => absurd hi (Nat.not_lt_zero i)⟩
  | n + 1, hmono => by
    obtain ⟨k, hkn, hiff⟩ := exists_partition_point P n
      (fun i j hij hj hPj => hmono i j hij (Nat.lt_succ_of_lt hj) hPj)
    by_cases hPn : P n
    · refine ⟨n + 1, le_refl _, fun i hi => ?_⟩
      exact ⟨fun _ => hi,
        fun _ => hmono i n (Nat.lt_succ_iff.mp hi) (Nat.lt_succ_self n) hPn⟩
    · refine ⟨k, Nat.le_succ_of_le hkn, fun i hi => ?_⟩
      rcases Nat.lt_succ_iff_lt_or_eq.mp hi with hi2 | hi2
      · exact hiff i hi2
      · subst hi2
        exact ⟨fun h => absurd h hPn,
          fun h => absurd (lt_of_lt_of_le h hkn) (lt_irrefl i)⟩

/-- Filtering with a predicate that holds exactly on an index window is
slicing that window. -/
theorem filter_eq_drop_take {α : Type} (p : α → Bool) :
    ∀ (l : List α) (s e : ℕ), s ≤ e → e ≤ l.length →
      (∀ (i : ℕ) (h : i < l.length), p (l.get ⟨i, h⟩) = true ↔ s ≤ i ∧ i < e) →
      l.filter p = (l.drop s).take (e - s)
  | [], s, e => by
    intro hse he hp
    simp
  | a :: l, s, e => by
    intro hse he hp
    cases s with
    | zero =>
      cases e with
      | zero =>
        simp only [Nat.sub_self, List.take_zero]
        refine List.filter_eq_nil.mpr ?_
        intro x hx
        obtain ⟨⟨i, hi⟩, rfl⟩ := List.mem_iff_get.mp hx
        intro hpx
        exact absurd ((hp i hi).mp hpx).2 (Nat.not_lt_zero i)
      | succ e1 =>
        have hpa : p a = true :=
          (hp 0 (Nat.succ_pos _)).mpr ⟨le_refl 0, Nat.succ_pos e1⟩
        have hrec := filter_eq_drop_take p l 0 e1 (Nat.zero_le e1)
          (by simpa using he)
          (fun i h => by
            have := hp (i + 1) (by simpa using h)
            rw [List.get_cons_succ] at this
            rw [this]
            omega)
        simp only [List.filter_cons, hpa, if_true, List.drop_zero, Nat.sub_zero,
          List.take_succ_cons, List.drop_zero, Nat.sub_zero] at hrec ⊢
        rw [hrec]
    | succ s1 =>
      cases e with
      | zero => exact absurd hse (by omega)
      | succ e1 =>
        have hpa : p a = false := by
          rcases hpab : p a with _ | _
          · rfl
          · have := (hp 0 (Nat.succ_pos _)).mp hpab
            omega
        have hrec := filter_eq_drop_take p l s1 e1 (by omega)
          (by simpa using he)
          (fun i h => by
            have := hp (i + 1) (by simpa using h)
            rw [List.get_cons_succ] at this
            rw [this]
            omega)
        simp only [List.filter_cons, hpa, Bool.false_eq_true, if_false, List.drop_succ_cons,
          Nat.succ_sub_succ] at hrec ⊢
        exact hrec

/-- Two adjacent slices of a list concatenate to one slice. -/
theorem drop_take_append {α : Type} (gl : List α) (s m e : ℕ)
    (h1 : s ≤ m) (h2 : m ≤ e) :
    (gl.drop s).take (m - s) ++ (gl.drop m).take (e - m) = (gl.drop s).take (e - s) := by
  have he : e - s = (m - s) + (e - m) := by omega
  have hd : gl.drop m = (gl.drop s).drop (m - s) := by
    rw [List.drop_drop]
    congr 1
    omega
  rw [he, List.take_add, hd]

/-- A tiling of `[a, b)` by ranges each of which is ascending forces
`a ≤ b`. -/
theorem linesChainB_le :
    ∀ (ls : List Line) (a b : ℕ), linesChainB a ls b = true →
      (∀ L ∈ ls, L.glyphs.1 ≤ L.glyphs.2) → a ≤ b
  | [], a, b => by
    intro hc _
    simp only [linesChainB, beq_iff_eq] at hc
    omega
  | L :: ls, a, b => by
    intro hc hm
    simp only [linesChainB, Bool.and_eq_true, beq_iff_eq] at hc
    obtain ⟨ha, hc2⟩ := hc
    have h1 := hm L (List.mem_cons_self _ _)
    have h2 := linesChainB_le ls L.glyphs.2 b hc2
      (fun M hM => hm M (List.mem_cons_of_mem _ hM))
    omega

/-- Concatenating the glyph slices of a contiguous tiling of `[a, b)`
yields the single slice `[a, b)` of the glyph list. -/
theorem chain_flatMap {α : Type} (gl : List α) :
    ∀ (ls : List Line) (a b : ℕ),
      linesChainB a ls b = true → b ≤ gl.length →
      (∀ L ∈ ls, L.glyphs.1 ≤ L.glyphs.2) →
      ls.flatMap (fun L => (gl.drop L.glyphs.1).take (L.glyphs.2 - L.glyphs.1)) =
        (gl.drop a).take (b - a)
  | [], a, b => by
    intro hc hb hm
    simp only [linesChainB, beq_iff_eq] at hc
    subst hc
    simp
  | L :: ls, a, b => by
    intro hc hb hm
    simp only [linesChainB, Bool.and_eq_true, beq_iff_eq] at hc
    obtain ⟨ha, hc2⟩ := hc
    subst ha
    have hmL := hm L (List.mem_cons_self _ _)
    have hmtl : ∀ M ∈ ls, M.glyphs.1 ≤ M.glyphs.2 :=
      fun M hM => hm M (List.mem_cons_of_mem _ hM)
    have hle2 := linesChainB_le ls L.glyphs.2 b hc2 hmtl
    rw [List.flatMap_cons, chain_flatMap gl ls L.glyphs.2 b hc2 hb hmtl]
    exact drop_take_append gl L.glyphs.1 L.glyphs.2 b hmL hle2

/-- Dropping `k` lines of a tiling leaves a tiling starting at line `k`'s
range start. -/
theorem linesChainB_drop :
    ∀ (ls : List Line) (a b k : ℕ), linesChainB a ls b = true → k < ls.length →
      linesChainB (ls.getD k default).glyphs.1 (ls.drop k) b = true
  | [], a, b, k => by
    intro _ hk
    exact absurd hk (by simp)
  | L :: ls, a, b, 0 => by
    intro hc _
    simp only [linesChainB, Bool.and_eq_true, beq_iff_eq] at hc ⊢
    exact ⟨rfl, hc.2⟩
  | L :: ls, a, b, k + 1 => by
    intro hc hk
    simp only [linesChainB, Bool.and_eq_true, beq_iff_eq] at hc
    simp only [List.getD_cons_succ, List.drop_succ_cons]
    exact linesChainB_drop ls L.glyphs.2 b k hc.2 (by simpa using hk)

/-- Taking the first `m + 1` lines of a tiling gives a tiling ending at
line `m`'s range end. -/
theorem linesChainB_take :
    ∀ (ls : List Line) (a b m : ℕ), linesChainB a ls b = true → m < ls.length →
      linesChainB a (ls.take (m + 1)) (ls.getD m default).glyphs.2 = true
  | [], a, b, m => by
    intro _ hm
    exact absurd hm (by simp)
  | L :: ls, a, b, 0 => by
    intro hc _
    simp only [linesChainB, Bool.and_eq_true, beq_iff_eq] at hc
    simp only [List.take_succ_cons, List.take_zero, List.getD_cons_zero, linesChainB,
      Bool.and_eq_true, beq_iff_eq]
    exact ⟨hc.1, trivial⟩
  | L :: ls, a, b, m + 1 => by
    intro hc hm
    simp only [linesChainB, Bool.and_eq_true, beq_iff_eq] at hc
    simp only [List.take_succ_cons, List.getD_cons_succ, linesChainB, Bool.and_eq_true,
      beq_iff_eq]
    exact ⟨hc.1, linesChainB_take ls L.glyphs.2 b m hc.2 (by simpa using hm)⟩

/-- The `base`/`size` loop of `slice::binary_search_by` on a comparator
that is `lt` exactly below a partition point `k`. -/
theorem bsGo_eq (g : ℕ → Ordering) (n k : ℕ)
    (hg : ∀ i, i < n → g i = if i < k then Ordering.lt else Ordering.gt) :
    ∀ (size : ℕ), ∀ (base : ℕ), 0 < size → base + size ≤ n →
      bsGo g base size = max base (min (k - 1) (base + size - 1)) := by
  intro size
  induction size using Nat.strong_induction_on with
  | _ size ih =>
    intro base hpos hle
    rw [bsGo]
    by_cases hs1 : size ≤ 1
    · rw [dif_pos hs1]
      have h1 : size = 1 := by omega
      subst h1
      omega
    · rw [dif_neg hs1]
      dsimp only
      have hmidlt : base + size / 2 < n := by omega
      have hgm := hg (base + size / 2) hmidlt
      by_cases hgt : g (base + size / 2) = Ordering.gt
      · rw [if_pos hgt]
        have hk : k ≤ base + size / 2 := by
          by_contra hk
          push_neg at hk
          rw [if_pos hk] at hgm
          rw [hgm] at hgt
          exact Ordering.noConfusion hgt
        rw [ih (size - size / 2) (by omega) base (by omega) (by omega)]
        omega
      · rw [if_neg hgt]
        have hk : base + size / 2 < k := by
          by_contra hk
          push_neg at hk
          rw [if_neg (by omega)] at hgm
          exact hgt hgm
        rw [ih (size - size / 2) (by omega) (base + size / 2) (by omega) (by omega)]
        omega

/-- `binary_search_by(..).unwrap_err()` on a partition comparator returns
the partition point, clamped to the slice length. -/
theorem binary_search_err_eq (g : ℕ → Ordering) (n k : ℕ)
    (hg : ∀ i, i < n → g i = if i < k then Ordering.lt else Ordering.gt) :
    binary_search_err g n = min k n := by
  rw [binary_search_err]
  by_cases hn : n = 0
  · rw [if_pos hn]
    omega
  · rw [if_neg hn]
    have hb := bsGo_eq g n k hg n 0 (by omega) (by omega)
    dsimp only
    rw [hb]
    set b := max 0 (min (k - 1) (0 + n - 1)) with hbdef
    have hblt : b < n := by omega
    have hgb := hg b hblt
    by_cases hk : b < k
    · rw [if_pos hk] at hgb
      rw [hgb]
      show b + 1 = min k n
      omega
    · rw [if_neg hk] at hgb
      rw [hgb]
      show b = min k n
      omega

/-- `getD` of a dropped list, at the default used by `clip`. -/
theorem getD_drop_line (l : List Line) (n m : ℕ) (h : n + m < l.length) :
    (l.drop n).getD m default = l.getD (n + m) default := by
  have h1 : m < (l.drop n).length := by
    rw [List.length_drop]
    omega
  rw [List.getD_eq_getElem?_getD, List.getElem?_eq_getElem h1,
    List.getD_eq_getElem?_getD, List.getElem?_eq_getElem h]
  simp only [Option.getD_some]
  exact List.getElem_drop l

/-- C1 (amended): on a display whose lines are strictly ascending by
start-y and pairwise non-overlapping, have proper y-ranges and ascending
glyph ranges, and whose glyph ranges tile the glyph sequence in order,
`clip` returns exactly the concatenation of the glyph ranges of the lines
`L` with `L.start < yMax` and `L.end > yMin`, and the empty slice when no
line is visible.  The claim's unconditional form — over every display
produced by layout — is false, because layout can produce unsorted lines
on which the two binary searches return a slice that is not the set of
visible lines (`clip_cex`). -/
theorem clip_returns_visible_lines (d : Display) (yMin yMax : ℚ)
    (hord : linesSortedNonoverlap d.lines)
    (hproper : ∀ L ∈ d.lines, L.bounds_y.1 ≤ L.bounds_y.2)
    (hmono : ∀ L ∈ d.lines, L.glyphs.1 ≤ L.glyphs.2)
    (hchain : linesChainB 0 d.lines d.glyphs.length = true) :
    d.clip yMin yMax = clipSpecGlyphs d yMin yMax := by
  have hpw := List.pairwise_iff_getElem.mp hord
  have hgetD : ∀ (i : ℕ) (h : i < d.lines.length),
      d.lines.getD i default = d.lines[i] := by
    intro i h
    rw [List.getD_eq_getElem?_getD, List.getElem?_eq_getElem h]
    rfl
  have hmono1 : ∀ i j, i ≤ j → j < d.lines.length →
      (d.lines.getD j default).bounds_y.1 < yMax →
      (d.lines.getD i default).bounds_y.1 < yMax := by
    intro i j hij hj hPj
    rcases eq_or_lt_of_le hij with rfl | hlt2
    · exact hPj
    · have hi : i < d.lines.length := lt_trans hlt2 hj
      have hij2 := hpw i j hi hj hlt2
      rw [hgetD j hj] at hPj
      rw [hgetD i hi]
      linarith [hij2.1]
  obtain ⟨k1, hk1n, hiff1⟩ := exists_partition_point
    (fun i => (d.lines.getD i default).bounds_y.1 < yMax) d.lines.length hmono1
  have hmono2 : ∀ i j, i ≤ j → j < k1 →
      (d.lines.getD j default).bounds_y.2 ≤ yMin →
      (d.lines.getD i default).bounds_y.2 ≤ yMin := by
    intro i j hij hj hPj
    rcases eq_or_lt_of_le hij with rfl | hlt2
    · exact hPj
    · have hjn : j < d.lines.length := lt_of_lt_of_le hj hk1n
      have hi : i < d.lines.length := lt_trans hlt2 hjn
      have hij2 := hpw i j hi hjn hlt2
      have hpj := hproper d.lines[j] (d.lines.getElem_mem hjn)
      rw [hgetD j hjn] at hPj
      rw [hgetD i hi]
      linarith [hij2.2]
  obtain ⟨k2, hk2k1, hiff2⟩ := exists_partition_point
    (fun i => (d.lines.getD i default).bounds_y.2 ≤ yMin) k1 hmono2
  have he1 : binary_search_err
      (fun i => if (d.lines.getD i default).bounds_y.1 < yMax then Ordering.lt
        else Ordering.gt) d.lines.length = k1 := by
    rw [binary_search_err_eq _ _ k1 (fun i hi => if_congr (hiff1 i hi) rfl rfl)]
    omega
  have he2 : binary_search_err
      (fun i => if (d.lines.getD i default).bounds_y.2 > yMin then Ordering.gt
        else Ordering.lt) k1 = k2 := by
    rw [binary_search_err_eq _ _ k2 ?_]
    · omega
    · intro i hi
      by_cases hle : (d.lines.getD i default).bounds_y.2 ≤ yMin
      · rw [if_neg (not_lt.mpr hle), if_pos ((hiff2 i hi).mp hle)]
      · rw [if_pos (not_le.mp hle), if_neg]
        intro hik2
        exact hle ((hiff2 i hi).mpr hik2)
  have hfilter : d.lines.filter (clipSpecMatches yMin yMax) =
      (d.lines.drop k2).take (k1 - k2) := by
    refine filter_eq_drop_take _ d.lines k2 k1 hk2k1 hk1n ?_
    intro i h
    simp only [clipSpecMatches, Bool.and_eq_true, decide_eq_true_eq]
    have hget : d.lines.get ⟨i, h⟩ = d.lines.getD i default := (hgetD i h).symm
    rw [hget]
    constructor
    · rintro ⟨h1, h2⟩
      have hik1 : i < k1 := (hiff1 i h).mp h1
      refine ⟨?_, hik1⟩
      by_contra hik2
      push_neg at hik2
      exact absurd ((hiff2 i hik1).mpr hik2) (not_le.mpr h2)
    · rintro ⟨h1, h2⟩
      refine ⟨(hiff1 i h).mpr h2, ?_⟩
      by_contra hle
      push_neg at hle
      have := (hiff2 i h2).mp hle
      omega
  simp only [Display.clip, clipSpecGlyphs]
  rw [he1, he2, hfilter]
  by_cases hlt : k2 < k1
  · rw [if_pos hlt]
    have hd1 := linesChainB_drop d.lines 0 d.glyphs.length k2 hchain (by omega)
    have hd2 := linesChainB_take (d.lines.drop k2) ((d.lines.getD k2 default).glyphs.1)
      d.glyphs.length (k1 - k2 - 1) hd1 (by rw [List.length_drop]; omega)
    have htk : (k1 - k2 - 1) + 1 = k1 - k2 := by omega
    rw [htk] at hd2
    have hgd : (d.lines.drop k2).getD (k1 - k2 - 1) default =
        d.lines.getD (k1 - 1) default := by
      rw [getD_drop_line d.lines k2 (k1 - k2 - 1) (by omega)]
      congr 1
      omega
    rw [hgd] at hd2
    have hchE : linesChainB (d.lines.getD (k1 - 1) default).glyphs.2
        (d.lines.drop k1) d.glyphs.length = true := by
      have hd3 := linesChainB_drop d.lines 0 d.glyphs.length (k1 - 1) hchain (by omega)
      rw [List.drop_eq_getElem_cons (by omega : k1 - 1 < d.lines.length)] at hd3
      simp only [linesChainB, Bool.and_eq_true, beq_iff_eq] at hd3
      have hix : k1 - 1 + 1 = k1 := by omega
      rw [hix] at hd3
      rw [hgetD (k1 - 1) (by omega)]
      exact hd3.2
    have heN : (d.lines.getD (k1 - 1) default).glyphs.2 ≤ d.glyphs.length :=
      linesChainB_le _ _ _ hchE (fun M hM => hmono M (List.mem_of_mem_drop hM))
    have hmw : ∀ M ∈ (d.lines.drop k2).take (k1 - k2), M.glyphs.1 ≤ M.glyphs.2 :=
      fun M hM => hmono M (List.mem_of_mem_drop (List.mem_of_mem_take hM))
    have hfm := chain_flatMap d.glyphs ((d.lines.drop k2).take (k1 - k2)) _ _ hd2 heN hmw
    have hfm2 : ((d.lines.drop k2).take (k1 - k2)).flatMap (lineSlice d) =
        (d.glyphs.drop (d.lines.getD k2 default).glyphs.1).take
          ((d.lines.getD (k1 - 1) default).glyphs.2 -
            (d.lines.getD k2 default).glyphs.1) := hfm
    rw [hfm2]
  · rw [if_neg hlt]
    have hk : k1 - k2 = 0 := by omega
    rw [hk]
    simp

theorem clip_returns_visible_lines_witness :
    linesSortedNonoverlap wDisp1.lines ∧
    (∀ L ∈ wDisp1.lines, L.bounds_y.1 ≤ L.bounds_y.2) ∧
    (∀ L ∈ wDisp1.lines, L.glyphs.1 ≤ L.glyphs.2) ∧
    linesChainB 0 wDisp1.lines wDisp1.glyphs.length = true ∧
    wDisp1.clip 4 7 = clipSpecGlyphs wDisp1 4 7 :=
  ⟨by with_unfolding_all decide, by with_unfolding_all decide,
   by with_unfolding_all decide, by with_unfolding_all decide,
   clip_returns_visible_lines wDisp1 4 7 (by with_unfolding_all decide)
     (by with_unfolding_all decide) (by with_unfolding_all decide)
     (by with_unfolding_all decide)⟩

/-- C10: `translated` moves the position by exactly the offset and keeps
the color and font id; the receiver is unchanged since `translated` is a
pure function of it. -/
theorem translated_adds_offset (g : Lib.LayoutGlyph) (v : ℚ × ℚ) :
    (g.translated v).pos = (g.pos.1 + v.1, g.pos.2 + v.2) ∧
    (g.translated v).color = g.color ∧
    (g.translated v).font_id = g.font_id :=
  ⟨rfl, rfl, rfl⟩

/-- The commit loop never touches the queued sections. -/
theorem drawLoop_sections (ck : ℕ × ℕ → List ℕ → Bool) (ak : ℕ × ℕ → Bool) :
    ∀ (fuel : ℕ) (rb : Bool) (st : Lib.BrushS),
      (Lib.drawLoop ck ak fuel rb st).1.sections = st.sections := by
  intro fuel
  induction fuel with
  | zero => intro rb st; rfl
  | succ fuel ih =>
    intro rb st
    rw [Lib.drawLoop]
    split
    · rfl
    · dsimp only
      split <;> split <;> first
        | rfl
        | (split <;> first | (rw [ih]) | rfl)

/-- Flagging `texture_updated` does not change the pso data. -/
theorem drawCache_flag_pso (o : Option Lib.DrawnS) :
    (o.map (fun c => { c with textureUpdated := true })).map
        (fun c => (c.psoKey, c.psoObj)) =
      o.map (fun c => (c.psoKey, c.psoObj)) := by
  cases o <;> rfl

/-- The commit loop never touches the pso cache key or object. -/
theorem drawLoop_pso (ck : ℕ × ℕ → List ℕ → Bool) (ak : ℕ × ℕ → Bool) :
    ∀ (fuel : ℕ) (rb : Bool) (st : Lib.BrushS),
      (Lib.drawLoop ck ak fuel rb st).1.draw_cache.map
          (fun c => (c.psoKey, c.psoObj)) =
        st.draw_cache.map (fun c => (c.psoKey, c.psoObj)) := by
  intro fuel
  induction fuel with
  | zero => intro rb st; rfl
  | succ fuel ih =>
    intro rb st
    rw [Lib.drawLoop]
    split
    · rfl
    · dsimp only
      split <;> split <;> first
        | rfl
        | (split <;> first | (rw [ih]; dsimp only; rw [drawCache_flag_pso]) | rfl)

/-- C9 (amended): a draw call that issues a draw command clears the
queued sections, but the early success path taken when every queued
section has no glyphs returns with the sections list untouched.  The
original claim — that every successful call leaves the list empty,
including the no-glyph case — is refuted by
`sections_not_cleared_cex`. -/
theorem sections_cleared_iff_drawn (ck : ℕ × ℕ → List ℕ → Bool)
    (ak : ℕ × ℕ → Bool) (tgt : Lib.Target) (fuel : ℕ)
    (st st' : Lib.BrushS) (r : Lib.DrawResult)
    (h : Lib.draw_queued_with_transform ck ak tgt fuel st = (st', r)) :
    (∀ v, r = Lib.DrawResult.okDrawn v → st'.sections = []) ∧
    (r = Lib.DrawResult.okNoDraw → st'.sections = st.sections) := by
  rw [Lib.draw_queued_with_transform] at h
  rcases hdl : Lib.drawLoop ck ak fuel false st with ⟨st1, out⟩
  have hsec := drawLoop_sections ck ak fuel false st
  rw [hdl] at h hsec
  cases out
  · dsimp only at h
    rw [Prod.mk.injEq] at h
    obtain ⟨rfl, rfl⟩ := h
    exact ⟨fun v hv => Lib.DrawResult.noConfusion hv, fun _ => hsec⟩
  · dsimp only at h
    rw [Prod.mk.injEq] at h
    obtain ⟨rfl, rfl⟩ := h
    exact ⟨fun v _ => rfl, fun hv => Lib.DrawResult.noConfusion hv⟩
  · dsimp only at h
    rw [Prod.mk.injEq] at h
    obtain ⟨rfl, rfl⟩ := h
    exact ⟨fun v hv => Lib.DrawResult.noConfusion hv,
      fun hv => Lib.DrawResult.noConfusion hv⟩
  · dsimp only at h
    rw [Prod.mk.injEq] at h
    obtain ⟨rfl, rfl⟩ := h
    exact ⟨fun v hv => Lib.DrawResult.noConfusion hv,
      fun hv => Lib.DrawResult.noConfusion hv⟩

theorem sections_cleared_iff_drawn_witness :
    Lib.draw_queued_with_transform Lib.alwaysOk2 Lib.alwaysOk1 ⟨5, 7⟩ 1 Lib.wSt8 =
      (Lib.wSt7b, Lib.DrawResult.okDrawn 1) ∧
    Lib.wSt7b.sections = [] :=
  have h : Lib.draw_queued_with_transform Lib.alwaysOk2 Lib.alwaysOk1 ⟨5, 7⟩ 1 Lib.wSt8 =
      (Lib.wSt7b, Lib.DrawResult.okDrawn 1) := by decide
  ⟨h, (sections_cleared_iff_drawn Lib.alwaysOk2 Lib.alwaysOk1 ⟨5, 7⟩ 1 Lib.wSt8
    Lib.wSt7b (Lib.DrawResult.okDrawn 1) h).1 1 rfl⟩

/-- Counterexample to C9 as stated: a call whose queued sections all
contain no glyphs succeeds via the early-return path, and the sections
list is left with its two (empty) sections instead of being cleared. -/
theorem sections_not_cleared_cex :
    (Lib.draw_queued_with_transform Lib.alwaysOk2 Lib.alwaysOk1 ⟨5, 7⟩ 1 Lib.wSt9).2 =
      Lib.DrawResult.okNoDraw ∧
    (Lib.draw_queued_with_transform Lib.alwaysOk2 Lib.alwaysOk1 ⟨5, 7⟩ 1 Lib.wSt9).1.sections =
      [[], []] ∧
    ([[], []] : List (List ℕ)) ≠ [] := by
  refine ⟨by decide, by decide, by decide⟩

/-- C8 (amended): across draw calls that reuse an existing draw cache,
the pipeline state object is rebuilt if and only if the COLOR format of
the current target differs from the cached key; the depth format is not
part of the comparison, so a depth-only change reuses the stale pipeline
object (`pso_stale_depth_cex` refutes the claimed (color, depth)-pair
comparison). -/
theorem pso_rebuilt_iff_color_changes (ck : ℕ × ℕ → List ℕ → Bool)
    (ak : ℕ × ℕ → Bool) (tgt : Lib.Target) (fuel : ℕ)
    (st st' : Lib.BrushS) (v : ℕ) (c c' : Lib.DrawnS)
    (h : Lib.draw_queued_with_transform ck ak tgt fuel st = (st', .okDrawn v))
    (hc : st.draw_cache = some c) (hc' : st'.draw_cache = some c') :
    (c.psoKey = tgt.colorFmt → c'.psoObj = c.psoObj ∧ c'.psoKey = c.psoKey) ∧
    (c.psoKey ≠ tgt.colorFmt → c'.psoObj = (tgt.colorFmt, tgt.depthFmt) ∧
      c'.psoKey = tgt.colorFmt) := by
  rw [Lib.draw_queued_with_transform] at h
  rcases hdl : Lib.drawLoop ck ak fuel false st with ⟨st1, out⟩
  have hpso := drawLoop_pso ck ak fuel false st
  rw [hdl] at h hpso
  rw [hc] at hpso
  cases out
  · rw [Prod.mk.injEq] at h
    exact absurd h.2 (by simp)
  · rcases hdc : st1.draw_cache with _ | c1
    · rw [hdc] at hpso
      exact absurd hpso (by simp)
    · rw [hdc] at hpso
      simp only [Option.map_some', Option.some.injEq, Prod.mk.injEq] at hpso
      obtain ⟨hkey, hobj⟩ := hpso
      dsimp only at h
      rw [hdc] at h
      rw [Prod.mk.injEq] at h
      obtain ⟨hst', -⟩ := h
      rw [← hst'] at hc'
      dsimp only at hc'
      rw [Option.some.injEq] at hc'
      by_cases hk : c.psoKey = tgt.colorFmt
      · have hcond : ¬ (Lib.DrawnS.psoKey
            { c1 with instances := (st1.sections.map List.length).sum } ≠ tgt.colorFmt) := by
          dsimp only
          rw [hkey]
          exact fun hx => hx hk
        rw [if_neg hcond] at hc'
        constructor
        · intro _
          refine ⟨?_, ?_⟩ <;> (rw [← hc']; split <;> simp [hkey, hobj])
        · intro hx
          exact absurd hk hx
      · have hcond : Lib.DrawnS.psoKey
            { c1 with instances := (st1.sections.map List.length).sum } ≠ tgt.colorFmt := by
          dsimp only
          rw [hkey]
          exact hk
        rw [if_pos hcond] at hc'
        constructor
        · intro hx
          exact absurd hx hk
        · intro _
          refine ⟨?_, ?_⟩ <;> (rw [← hc']; split <;> rfl)
  · rw [Prod.mk.injEq] at h
    exact absurd h.2 (by simp)
  · rw [Prod.mk.injEq] at h
    exact absurd h.2 (by simp)

theorem pso_rebuilt_iff_color_changes_witness :
    Lib.draw_queued_with_transform Lib.alwaysOk2 Lib.alwaysOk1 ⟨5, 9⟩ 1 Lib.wSt8 =
      (Lib.wSt8b, Lib.DrawResult.okDrawn 1) ∧
    Lib.wSt8.draw_cache = some ⟨5, (5, 7), (2, 2), false, 0⟩ ∧
    Lib.wSt8b.draw_cache = some ⟨5, (5, 7), (2, 2), false, 1⟩ ∧
    ((⟨5, (5, 7), (2, 2), false, 1⟩ : Lib.DrawnS).psoObj =
        (⟨5, (5, 7), (2, 2), false, 0⟩ : Lib.DrawnS).psoObj ∧
      (⟨5, (5, 7), (2, 2), false, 1⟩ : Lib.DrawnS).psoKey =
        (⟨5, (5, 7), (2, 2), false, 0⟩ : Lib.DrawnS).psoKey) :=
  have h : Lib.draw_queued_with_transform Lib.alwaysOk2 Lib.alwaysOk1 ⟨5, 9⟩ 1 Lib.wSt8 =
      (Lib.wSt8b, Lib.DrawResult.okDrawn 1) := by decide
  ⟨h, rfl, by decide,
    (pso_rebuilt_iff_color_changes Lib.alwaysOk2 Lib.alwaysOk1 ⟨5, 9⟩ 1 Lib.wSt8
      Lib.wSt8b 1 ⟨5, (5, 7), (2, 2), false, 0⟩ ⟨5, (5, 7), (2, 2), false, 1⟩
      h rfl (by decide)).1 rfl⟩

/-- Counterexample to C8 as stated: drawing onto a target whose depth
format changed from `7` to `9` (same color format `5`) succeeds and keeps
the pipeline object built for `(5, 7)` — it is not rebuilt although the
(color, depth) pair differs. -/
theorem pso_stale_depth_cex :
    (Lib.draw_queued_with_transform Lib.alwaysOk2 Lib.alwaysOk1 ⟨5, 9⟩ 1 Lib.wSt8).2 =
      Lib.DrawResult.okDrawn 1 ∧
    Lib.wSt8b.draw_cache.map Lib.DrawnS.psoObj = some (5, 7) ∧
    ((5, 9) : ℕ × ℕ) ≠ (5, 7) := by
  refine ⟨by decide, by decide, by decide⟩

/-- C7: when the cache commit fails, both atlas dimensions are doubled
and — when the enlarged texture is allocated — the cache is rebuilt with
the queued requests intact, an existing draw cache is marked
`texture_updated`, the texture is swapped and the commit is retried;
when the allocation fails, the call returns the texture error with no
draw issued, the sections still queued, and the draw cache and bound
texture untouched. -/
theorem commit_failure_doubles_and_alloc_failure_preserves
    (commitOk : ℕ × ℕ → List ℕ → Bool) (allocOk : ℕ × ℕ → Bool)
    (tgt : Lib.Target) (fuel : ℕ) (st : Lib.BrushS)
    (hne : st.sections.all (fun s => s.isEmpty) = false)
    (hcommit : commitOk st.font_cache.dims
      (st.font_cache.queued ++ st.sections.flatten) = false) :
    (allocOk (2 * st.font_cache.dims.1, 2 * st.font_cache.dims.2) = true →
      Lib.drawLoop commitOk allocOk (fuel + 1) false st =
        Lib.drawLoop commitOk allocOk fuel true
          { st with
            font_cache := ⟨(2 * st.font_cache.dims.1, 2 * st.font_cache.dims.2),
              st.font_cache.queued ++ st.sections.flatten⟩,
            font_cache_tex := (2 * st.font_cache.dims.1, 2 * st.font_cache.dims.2),
            draw_cache := st.draw_cache.map
              (fun c => { c with textureUpdated := true }) }) ∧
    (allocOk (2 * st.font_cache.dims.1, 2 * st.font_cache.dims.2) = false →
      Lib.draw_queued_with_transform commitOk allocOk tgt (fuel + 1) st =
        ({ st with font_cache := ⟨st.font_cache.dims,
            st.font_cache.queued ++ st.sections.flatten⟩ },
          Lib.DrawResult.errTexture
            (2 * st.font_cache.dims.1, 2 * st.font_cache.dims.2))) := by
  have hloop : ∀ (halloc : Bool), allocOk
        (2 * st.font_cache.dims.1, 2 * st.font_cache.dims.2) = halloc →
      Lib.drawLoop commitOk allocOk (fuel + 1) false st =
        if halloc then
          Lib.drawLoop commitOk allocOk fuel true
            { st with
              font_cache := ⟨(2 * st.font_cache.dims.1, 2 * st.font_cache.dims.2),
                st.font_cache.queued ++ st.sections.flatten⟩,
              font_cache_tex := (2 * st.font_cache.dims.1, 2 * st.font_cache.dims.2),
              draw_cache := st.draw_cache.map
                (fun c => { c with textureUpdated := true }) }
        else
          ({ st with font_cache := ⟨st.font_cache.dims,
              st.font_cache.queued ++ st.sections.flatten⟩ },
            Lib.LoopOut.fail (2 * st.font_cache.dims.1, 2 * st.font_cache.dims.2)) := by
    intro halloc ha
    rw [Lib.drawLoop]
    rw [if_neg (by simp [hne])]
    dsimp only
    rw [if_neg (by simp [hcommit])]
    simp only [Bool.false_eq_true, if_false]
    rw [ha]
  constructor
  · intro ha
    have := hloop true ha
    rw [if_pos rfl] at this
    exact this
  · intro ha
    have := hloop false ha
    rw [if_neg (by decide : ¬ (false = true))] at this
    rw [Lib.draw_queued_with_transform, this]

theorem commit_failure_doubles_witness :
    Lib.wSt8.sections.all (fun s => s.isEmpty) = false ∧
    Lib.ck7 Lib.wSt8.font_cache.dims
      (Lib.wSt8.font_cache.queued ++ Lib.wSt8.sections.flatten) = false ∧
    Lib.alwaysOk1 (2 * Lib.wSt8.font_cache.dims.1, 2 * Lib.wSt8.font_cache.dims.2) = true ∧
    Lib.drawLoop Lib.ck7 Lib.alwaysOk1 (1 + 1) false Lib.wSt8 =
      Lib.drawLoop Lib.ck7 Lib.alwaysOk1 1 true
        { Lib.wSt8 with
          font_cache := ⟨(2 * Lib.wSt8.font_cache.dims.1, 2 * Lib.wSt8.font_cache.dims.2),
            Lib.wSt8.font_cache.queued ++ Lib.wSt8.sections.flatten⟩,
          font_cache_tex := (2 * Lib.wSt8.font_cache.dims.1, 2 * Lib.wSt8.font_cache.dims.2),
          draw_cache := Lib.wSt8.draw_cache.map
            (fun c => { c with textureUpdated := true }) } :=
  ⟨by decide, by decide, by decide,
    (commit_failure_doubles_and_alloc_failure_preserves Lib.ck7 Lib.alwaysOk1
      ⟨5, 7⟩ 1 Lib.wSt8 (by decide) (by decide)).1 (by decide)⟩

/-- The screen-to-gl x map is monotone for positive screen width. -/
theorem glX_le (w : ℚ) (hw : 0 < w) {x y : ℚ} (hxy : x ≤ y) :
    Lib.glX w x ≤ Lib.glX w y := by
  rw [Lib.glX, Lib.glX]
  have h1 : x / w ≤ y / w := (div_le_div_right hw).mpr hxy
  linarith

/-- The screen-to-gl y map is antitone (y is flipped). -/
theorem glY_le (h : ℚ) (hh : 0 < h) {x y : ℚ} (hxy : x ≤ y) :
    Lib.glY h y ≤ Lib.glY h x := by
  rw [Lib.glY, Lib.glY]
  have h1 : x / h ≤ y / h := (div_le_div_right hh).mpr hxy
  linarith

/-- The two sequential x-edge clips clamp the gl interval to
`[max a mlo, min b mhi]` and move the UV coordinate of each clipped edge
to its affine position over the original gl interval, keeping unclipped
UV coordinates exactly. -/
theorem clip_x_correct (a b u0 u1 mlo mhi : ℚ)
    (h1 : a ≤ mhi) (h2 : mlo ≤ b) (h3 : mlo ≤ mhi) :
    (Lib.clipMaxSeq a b u0 u1 mhi).1 = min b mhi ∧
    (Lib.clipMinSeq a (Lib.clipMaxSeq a b u0 u1 mhi).1 u0
      (Lib.clipMaxSeq a b u0 u1 mhi).2 mlo).1 = max a mlo ∧
    (Lib.clipMaxSeq a b u0 u1 mhi).2 =
      (if b > mhi then Lib.affineT u0 u1 a b mhi else u1) ∧
    (Lib.clipMinSeq a (Lib.clipMaxSeq a b u0 u1 mhi).1 u0
      (Lib.clipMaxSeq a b u0 u1 mhi).2 mlo).2 =
      (if a < mlo then Lib.affineT u0 u1 a b mlo else u0) := by
  by_cases hhi : b > mhi
  · rw [Lib.clipMaxSeq, if_pos hhi]
    dsimp only
    by_cases hlo : a < mlo
    · rw [Lib.clipMinSeq, if_pos hlo]
      dsimp only
      have hba : b - a ≠ 0 := by
        intro hz
        have : a < b := lt_of_le_of_lt h1 hhi
        linarith
      have hma : mhi - a ≠ 0 := by
        intro hz
        have : a < mhi := lt_of_lt_of_le hlo h3
        linarith
      refine ⟨(min_eq_right (le_of_lt hhi)).symm, (max_eq_right (le_of_lt hlo)).symm,
        (if_pos hhi).symm, ?_⟩
      rw [if_pos hlo]
      simp only [Lib.affineT]
      field_simp
      ring
    · rw [Lib.clipMinSeq, if_neg hlo]
      dsimp only
      push_neg at hlo
      exact ⟨(min_eq_right (le_of_lt hhi)).symm, (max_eq_left hlo).symm,
        (if_pos hhi).symm, (if_neg (not_lt.mpr hlo)).symm⟩
  · rw [Lib.clipMaxSeq, if_neg hhi]
    dsimp only
    push_neg at hhi
    by_cases hlo : a < mlo
    · rw [Lib.clipMinSeq, if_pos hlo]
      dsimp only
      have hba : b - a ≠ 0 := by
        intro hz
        have : a < b := lt_of_lt_of_le hlo h2
        linarith
      refine ⟨(min_eq_left hhi).symm, (max_eq_right (le_of_lt hlo)).symm,
        (if_neg (not_lt.mpr hhi)).symm, ?_⟩
      rw [if_pos hlo]
      simp only [Lib.affineT]
      field_simp
      ring
    · rw [Lib.clipMinSeq, if_neg hlo]
      dsimp only
      push_neg at hlo
      exact ⟨(min_eq_left hhi).symm, (max_eq_left hlo).symm,
        (if_neg (not_lt.mpr hhi)).symm, (if_neg (not_lt.mpr hlo)).symm⟩

/-- The two sequential y-edge clips (flipped comparisons) clamp the gl
interval to `[min a mlo, max b mhi]` with the same per-edge affine UV
behaviour. -/
theorem clip_y_correct (a b u0 u1 mlo mhi : ℚ)
    (h1 : mhi ≤ a) (h2 : b ≤ mlo) (h3 : mhi ≤ mlo) :
    (Lib.clipMaxFlip a b u0 u1 mhi).1 = max b mhi ∧
    (Lib.clipMinFlip a (Lib.clipMaxFlip a b u0 u1 mhi).1 u0
      (Lib.clipMaxFlip a b u0 u1 mhi).2 mlo).1 = min a mlo ∧
    (Lib.clipMaxFlip a b u0 u1 mhi).2 =
      (if b < mhi then Lib.affineT u0 u1 a b mhi else u1) ∧
    (Lib.clipMinFlip a (Lib.clipMaxFlip a b u0 u1 mhi).1 u0
      (Lib.clipMaxFlip a b u0 u1 mhi).2 mlo).2 =
      (if mlo < a then Lib.affineT u0 u1 a b mlo else u0) := by
  by_cases hhi : b < mhi
  · rw [Lib.clipMaxFlip, if_pos hhi]
    dsimp only
    by_cases hlo : mlo < a
    · rw [Lib.clipMinFlip, if_pos hlo]
      dsimp only
      have hba : b - a ≠ 0 := by
        intro hz
        have : b < a := lt_of_lt_of_le hhi h1
        linarith
      have hma : mhi - a ≠ 0 := by
        intro hz
        have : mhi < a := lt_of_le_of_lt h3 hlo
        linarith
      refine ⟨(max_eq_right (le_of_lt hhi)).symm, (min_eq_right (le_of_lt hlo)).symm,
        (if_pos hhi).symm, ?_⟩
      rw [if_pos hlo]
      simp only [Lib.affineT]
      field_simp
      ring
    · rw [Lib.clipMinFlip, if_neg hlo]
      dsimp only
      push_neg at hlo
      exact ⟨(max_eq_right (le_of_lt hhi)).symm, (min_eq_left hlo).symm,
        (if_pos hhi).symm, (if_neg (not_lt.mpr hlo)).symm⟩
  · rw [Lib.clipMaxFlip, if_neg hhi]
    dsimp only
    push_neg at hhi
    by_cases hlo : mlo < a
    · rw [Lib.clipMinFlip, if_pos hlo]
      dsimp only
      have hba : b - a ≠ 0 := by
        intro hz
        have : b < a := lt_of_le_of_lt h2 hlo
        linarith
      refine ⟨(max_eq_left hhi).symm, (min_eq_right (le_of_lt hlo)).symm,
        (if_neg (not_lt.mpr hhi)).symm, ?_⟩
      rw [if_pos hlo]
      simp only [Lib.affineT]
      field_simp
      ring
    · rw [Lib.clipMinFlip, if_neg hlo]
      dsimp only
      push_neg at hlo
      exact ⟨(max_eq_left hhi).symm, (min_eq_left hlo).symm,
        (if_neg (not_lt.mpr hhi)).symm, (if_neg (not_lt.mpr hlo)).symm⟩

/-- C6: for a glyph with an atlas entry, on a positive-size screen and a
proper bounds rectangle, `vertex` agrees with the specification: a glyph
strictly outside the bounds contributes no vertex; otherwise it
contributes exactly one vertex whose gl rect is clamped to the bounds on
exactly the overflowing edges and whose UV rect is shrunk to the affine
(proportional) position of each clipped edge over the original gl rect,
the UV coordinates of unclipped edges being preserved exactly. -/
theorem vertex_clips_proportionally (color : Color) (uv screen_rect bounds : Lib.RectQ)
    (z w h : ℚ) (hw : 0 < w) (hh : 0 < h)
    (hbx : bounds.min.1 ≤ bounds.max.1) (hby : bounds.min.2 ≤ bounds.max.2) :
    Lib.vertex color uv screen_rect bounds z w h =
      Lib.vertexSpec color uv screen_rect bounds z w h := by
  rw [Lib.vertex, Lib.vertexSpec]
  by_cases hout : screen_rect.min.1 > bounds.max.1 ∨ screen_rect.min.2 > bounds.max.2 ∨
      bounds.min.1 > screen_rect.max.1 ∨ bounds.min.2 > screen_rect.max.2
  · rw [if_pos hout, if_pos hout]
  · rw [if_neg hout, if_neg hout]
    push_neg at hout
    obtain ⟨ho1, ho2, ho3, ho4⟩ := hout
    obtain ⟨e1, e2, e3, e4⟩ := clip_x_correct
      (Lib.glX w screen_rect.min.1) (Lib.glX w screen_rect.max.1)
      uv.min.1 uv.max.1 (Lib.glX w bounds.min.1) (Lib.glX w bounds.max.1)
      (glX_le w hw ho1) (glX_le w hw ho3) (glX_le w hw hbx)
    obtain ⟨f1, f2, f3, f4⟩ := clip_y_correct
      (Lib.glY h screen_rect.min.2) (Lib.glY h screen_rect.max.2)
      uv.min.2 uv.max.2 (Lib.glY h bounds.min.2) (Lib.glY h bounds.max.2)
      (glY_le h hh ho2) (glY_le h hh ho4) (glY_le h hh hby)
    dsimp only [Lib.glRect]
    rw [e2, e4, e1, e3, f2, f4, f1, f3]

theorem vertex_clips_proportionally_witness :
    (0 : ℚ) < 100 ∧ (0 : ℚ) ≤ 50 ∧
    Lib.vertex COLOR_REGULAR ⟨(0, 0), (1, 1)⟩ ⟨(40, 40), (60, 60)⟩
        ⟨(0, 0), (50, 50)⟩ 0 100 100 =
      Lib.vertexSpec COLOR_REGULAR ⟨(0, 0), (1, 1)⟩ ⟨(40, 40), (60, 60)⟩
        ⟨(0, 0), (50, 50)⟩ 0 100 100 :=
  ⟨by norm_num, by norm_num,
    vertex_clips_proportionally COLOR_REGULAR ⟨(0, 0), (1, 1)⟩ ⟨(40, 40), (60, 60)⟩
      ⟨(0, 0), (50, 50)⟩ 0 100 100 (by norm_num) (by norm_num)
      (by norm_num) (by norm_num)⟩

end GfxGlyph
